import Mathlib

/-!
Verification development for the connection and mesh state machine of
`bittorrent-relay` (`src/index.js`).

Embedding conventions:
* JavaScript `Map`s become association lists `List (String × α)` with
  `Map.set` / `get` / `has` / `delete` semantics (`mset`, `mget`, `mhas`,
  `mdel`); insertion order is preserved, keys are unique.
* JavaScript `Set`s of strings become duplicate-free `List String` in
  insertion order (`sadd`, `sdel`); `for … of` iterates in list order.
* `Date.now()` timestamps are integers (milliseconds).
* SHA-1 (`crypto.createHash('sha1')…digest('hex')`) is an external
  primitive of the source, so definitions that need it are parametric in a
  function `sha1 : String → String`.
* JavaScript numbers that matter to the claims are rationals; the one
  floating-point division involved (`(Date.now() - stamp) / 1000`) is
  exact at the integral boundary the relevant claim is about.
-/

namespace Relay

/-- JS `Map.prototype.get` on an association list. -/
def mget {α : Type} : List (String × α) → String → Option α
  | [], _ => none
  | (k', v) :: rest, k => if k' = k then some v else mget rest k

/-- JS `Map.prototype.has`. -/
def mhas {α : Type} (m : List (String × α)) (k : String) : Bool :=
  (mget m k).isSome

/-- JS `Map.prototype.set`: replaces the value in place if the key exists,
else appends the new pair. -/
def mset {α : Type} : List (String × α) → String → α → List (String × α)
  | [], k, v => [(k, v)]
  | (k', v') :: rest, k, v =>
      if k' = k then (k, v) :: rest else (k', v') :: mset rest k v

/-- JS `Map.prototype.delete`. -/
def mdel {α : Type} : List (String × α) → String → List (String × α)
  | [], _ => []
  | (k', v') :: rest, k => if k' = k then rest else (k', v') :: mdel rest k

/-- JS `Set.prototype.add`: appends unless already present. -/
def sadd (s : List String) (x : String) : List String :=
  if x ∈ s then s else s ++ [x]

/-- JS `Set.prototype.delete`. -/
def sdel (s : List String) (x : String) : List String :=
  s.erase x

/-! ### The `want` query-parameter clamp (`/signal` accept, `src/index.js:139-140`) -/

/-- Result of `Number(test.searchParams.get('want'))`: either `NaN` or a
JS number.  A missing `want` parameter gives `Number(null) = 0`; an
unparseable one gives `NaN`. -/
inductive JSNum where
  | nan : JSNum
  | num : ℚ → JSNum
deriving DecidableEq

/-- `src/index.js:140`:
`isNaN(checkWant) ? 3 : (checkWant) && (checkWant < 1 || checkWant > 6) ? 3 : Math.floor(checkWant)`.
`(checkWant)` is JS truthiness, which is false exactly for the number `0`
(the `NaN` case is already handled by the first branch). -/
def computeWant : JSNum → ℤ
  | .nan => 3
  | .num q => if q ≠ 0 ∧ (q < 1 ∨ 6 < q) then 3 else ⌊q⌋

/-! ### The backoff dial gate (`relay.onPeer`, `src/index.js:242-248`) -/

/-- One entry of `triedAlready`: `{stamp: Date.now(), wait: seconds}`. -/
structure BackoffEntry where
  stamp : ℤ
  wait : ℚ
deriving DecidableEq

/-- The dial gate in `relay.onPeer`: a dial attempt proceeds unless a
`triedAlready` entry exists whose
`check.wait >= (Date.now() - check.stamp) / 1000`.  Returns `true` when the
dial is permitted. -/
def shouldTry (table : List (String × BackoffEntry)) (id : String) (now : ℤ) : Bool :=
  match mget table id with
  | none => true
  | some e => if e.wait ≥ ((now : ℚ) - (e.stamp : ℚ)) / 1000 then false else true

/-- **C4** (counterexample): the claim says a parsed `want` of `0` yields `3`;
in the code `0` is falsy, so the truthiness guard falls through to
`Math.floor(0) = 0` and the accepted connection has `want = 0`, not `3`. -/
theorem c4_want_zero_counterexample :
    computeWant (JSNum.num 0) = 0 ∧ computeWant (JSNum.num 0) ≠ 3 := by
  norm_num [computeWant]

/-- **C4** (amended): `want` parsing as the code does it: `NaN` yields 3, a
nonzero value outside `[1,6]` yields 3, a value inside `[1,6]` yields its
floor, but the value `0` (including a missing `want` parameter, which parses
to `0`) yields `0`.  Concretely `want=99` yields 3, `want=0` yields 0 and
`want=4` yields 4. -/
theorem c4_want_clamp :
    computeWant JSNum.nan = 3 ∧
    computeWant (JSNum.num 0) = 0 ∧
    (∀ q : ℚ, q ≠ 0 → (q < 1 ∨ 6 < q) → computeWant (JSNum.num q) = 3) ∧
    (∀ q : ℚ, 1 ≤ q → q ≤ 6 → computeWant (JSNum.num q) = ⌊q⌋) ∧
    computeWant (JSNum.num 99) = 3 ∧ computeWant (JSNum.num 4) = 4 := by
  refine ⟨rfl, by norm_num [computeWant], ?_, ?_, by norm_num [computeWant],
    by norm_num [computeWant]⟩
  · intro q hq hout
    simp only [computeWant, if_pos (And.intro hq hout)]
  · intro q h1 h6
    have hq : ¬(q ≠ 0 ∧ (q < 1 ∨ 6 < q)) := by
      rintro ⟨-, h | h⟩ <;> linarith
    simp only [computeWant, if_neg hq]

/-- **C4** (witness): the amended clamp evaluated at concrete inputs, via
`c4_want_clamp`. -/
theorem c4_want_clamp_witness :
    computeWant (JSNum.num 5) = 5 ∧ computeWant (JSNum.num (1/2)) = 3 := by
  refine ⟨?_, ?_⟩
  · have h := c4_want_clamp.2.2.2.1 5 (by norm_num) (by norm_num)
    simpa using h
  · exact c4_want_clamp.2.2.1 (1/2) (by norm_num) (by norm_num)

/-- **C10** (counterexample): at exact equality of elapsed seconds and
`wait` — entry `{stamp := 0, wait := 1}` probed at `now = 1000`, so
`(now − stamp)/1000 = 1 = wait` — the claim says the dial is permitted, but
the guard `check.wait >= checkStamp` fires and the dial is blocked. -/
theorem c10_equality_counterexample :
    shouldTry [("p", ⟨0, 1⟩)] "p" 1000 = false ∧
      (((1000 : ℤ) : ℚ) - ((0 : ℤ) : ℚ)) / 1000 ≥ (1 : ℚ) := by
  constructor
  · norm_num [shouldTry, mget]
  · norm_num

/-- **C10** (amended): the dial gate permits an attempt iff no
`triedAlready` entry exists for the peer id, or the elapsed seconds
`(now − stamp)/1000` are **strictly** greater than `wait`; at exact
equality the dial is blocked. -/
theorem c10_shouldTry_iff (table : List (String × BackoffEntry)) (id : String) (now : ℤ) :
    shouldTry table id now = true ↔
      mget table id = none ∨
        ∃ e, mget table id = some e ∧ e.wait < ((now : ℚ) - (e.stamp : ℚ)) / 1000 := by
  unfold shouldTry
  cases h : mget table id with
  | none => simp
  | some e =>
      by_cases hw : e.wait ≥ ((now : ℚ) - (e.stamp : ℚ)) / 1000
      · simp only [if_pos hw]
        constructor
        · intro hfalse; simp at hfalse
        · rintro (hnone | ⟨e', he', hlt⟩)
          · simp at hnone
          · injection he' with he''
            subst he''
            linarith
      · simp only [if_neg hw, true_iff]
        exact Or.inr ⟨e, rfl, lt_of_not_ge hw⟩

/-! ## The relay-peer state machine (`/relay` accept, `relay.onPeer` dial,
`onServerConnection` handlers, `src/index.js:155-193,223-303,400-558`)

Relay sockets are JS objects shared between `this.servers` (by id) and the
membership lists `this.relays` (by digest); object identity matters, so
the embedding uses a heap: `sockets` is the list of all socket objects ever
created, and both indexes store heap positions. -/

/-- A relay-peer socket (`RelayConn`).  `relay` becomes `none` when the
`session` handler executes `delete socket.relay`; the peer-reported
identity fields are `none` until a `session` frame records them.  `closed`
models that the socket's `close` event has fired (the handlers are then
detached by `handleListeners`). -/
structure RSocket where
  id : String
  relay : Option String
  relays : List String
  session : Bool
  active : Bool
  closed : Bool
  address : Option String
  web : Option String
  host : Option String
  port : Option ℤ
  domain : Option String
deriving DecidableEq

/-- A `session` frame as read by `onServerConnection`. -/
structure SFrame where
  id : String
  relay : String
  address : String
  web : String
  host : String
  port : ℤ
  domain : String
deriving DecidableEq

/-- Mesh-side state of one `Server` instance: self identity, the fixed
digest key set of `this.relays`, the socket heap, and the two indexes. -/
structure SState where
  selfId : String
  selfAddress : String
  selfWeb : String
  selfHost : String
  selfPort : ℤ
  selfDomain : String
  digests : List String
  sockets : List RSocket
  servers : List (String × Nat)
  relaysM : List (String × List Nat)
deriving DecidableEq

/-- Dereference a heap position. -/
def getSock (s : SState) (r : Nat) : Option RSocket :=
  s.sockets[r]?

/-- Mutate the socket object at a heap position. -/
def setSock (s : SState) (r : Nat) (k : RSocket) : SState :=
  { s with sockets := s.sockets.set r k }

/-- `datas.id` for a heap position, as used by the `findIndex`/`find`
callbacks comparing `socket.id === datas.id`. -/
def idAt (s : SState) (r : Nat) : Option String :=
  (getSock s r).map RSocket.id

/-- JS `Array.prototype.findIndex`, as an option-valued index. -/
def jsFindIdx {α : Type} (p : α → Bool) : List α → Option Nat
  | [] => none
  | x :: xs => if p x then some 0 else (jsFindIdx p xs).map (· + 1)

/-- Index of the first membership entry whose `id` matches
(`checkRelay.findIndex((datas) => socket.id === datas.id)`). -/
def memberIdx (s : SState) (refs : List Nat) (i : String) : Option Nat :=
  jsFindIdx (fun r' => decide (idAt s r' = some i)) refs

/-- Initial mesh state: empty heap and `servers`; `this.relays` is built as
`new Map(hashes.map(h => [sha1(h), []]))` — the `Map` constructor keeps one
entry per key. -/
def sInit (selfId selfAddress selfWeb selfHost : String) (selfPort : ℤ)
    (selfDomain : String) (digests : List String) : SState :=
  { selfId := selfId, selfAddress := selfAddress, selfWeb := selfWeb,
    selfHost := selfHost, selfPort := selfPort, selfDomain := selfDomain,
    digests := digests, sockets := [], servers := [],
    relaysM := digests.foldl (fun m d => mset m d []) [] }

/-- One iteration of the membership-push loop of the `session` handler:
`if (this.relays.has(r)) this.relays.get(r).push(socket)`. -/
def pushStep (ref : Nat) (acc : List (String × List Nat)) (d : String) :
    List (String × List Nat) :=
  match mget acc d with
  | none => acc
  | some refs => mset acc d (refs ++ [ref])

/-- `for (const r of socket.relays) { if (this.relays.has(r))
this.relays.get(r).push(socket) }` (`src/index.js:451-455`); the loop only
touches `this.relays`. -/
def pushRef (ref : Nat) (m : List (String × List Nat)) (ds : List String) :
    List (String × List Nat) :=
  ds.foldl (pushStep ref) m

/-- The `session` handler (`src/index.js:437-457`).  The validation
disjunction is checked before any mutation; on failure the socket is closed
(`Bool` result `true`) and the state is untouched.  On success:
dedup-append `data.relay` to `socket.relays`, `delete data.relay` /
`delete socket.relay`, copy the remaining frame fields onto the socket
(including `id` and `address`), push the socket into `relays[r]` for every
`r` of its `relays` list that is a subscribed digest, set `session=true`. -/
def sessionApply (sha1 : String → String) (s : SState) (r : Nat) (f : SFrame) :
    SState × Bool :=
  match getSock s r with
  | none => (s, false)
  | some sock =>
    if mhas s.relaysM f.id ∨ sock.relay ≠ some f.relay ∨ f.id ≠ sha1 f.address then
      (s, true)
    else
      let rel' := if f.relay ∈ sock.relays then sock.relays else sock.relays ++ [f.relay]
      let sock' : RSocket :=
        { id := f.id, relay := none, relays := rel', session := true,
          active := sock.active, closed := sock.closed,
          address := some f.address, web := some f.web, host := some f.host,
          port := some f.port, domain := some f.domain }
      let s1 := setSock s r sock'
      ({ s1 with relaysM := pushRef r s1.relaysM rel' }, false)

/-- The `add` handler (`src/index.js:458-472`): for a subscribed digest,
append the socket to `relays[d]` unless a member with the same `id` is
already there, and dedup-append `d` to `socket.relays`. -/
def addApply (s : SState) (r : Nat) (d : String) : SState :=
  match getSock s r with
  | none => s
  | some sock =>
    match mget s.relaysM d with
    | none => s
    | some refs =>
      let s1 :=
        match memberIdx s refs sock.id with
        | some _ => s
        | none => { s with relaysM := mset s.relaysM d (refs ++ [r]) }
      if d ∈ sock.relays then s1
      else setSock s1 r { sock with relays := sock.relays ++ [d] }

/-- The `sub` handler (`src/index.js:473-491`): for a subscribed digest, if
it is the socket's only remaining digest, close the socket (no mutation);
otherwise splice out the first id-matching member of `relays[d]` and remove
`d` from `socket.relays`. -/
def subApply (s : SState) (r : Nat) (d : String) : SState × Bool :=
  match getSock s r with
  | none => (s, false)
  | some sock =>
    match mget s.relaysM d with
    | none => (s, false)
    | some refs =>
      if sock.relays.length = 1 ∧ d ∈ sock.relays then (s, true)
      else
        let s1 :=
          match memberIdx s refs sock.id with
          | none => s
          | some i => { s with relaysM := mset s.relaysM d (refs.eraseIdx i) }
        let s2 :=
          if d ∈ sock.relays then setSock s1 r { sock with relays := sock.relays.erase d }
          else s1
        (s2, false)

/-- The `pong` handler (`src/index.js:495-497`): `socket.active = true`. -/
def pongApply (s : SState) (r : Nat) : SState :=
  match getSock s r with
  | none => s
  | some sock => setSock s r { sock with active := true }

/-- One iteration of the `on` / `off` loop: `find` the first member of
`relays[d]` with the handler socket's `id` and, if any, set its `session`
flag. -/
def toggleStep (i : String) (b : Bool) (acc : SState) (d : String) : SState :=
  match mget acc.relaysM d with
  | none => acc
  | some refs =>
    match refs.find? (fun r' => decide (idAt acc r' = some i)) with
    | none => acc
    | some r' =>
      match getSock acc r' with
      | none => acc
      | some k => setSock acc r' { k with session := b }

/-- The `on` / `off` handlers (`src/index.js:498-519`): for each digest of
`socket.relays` that is subscribed, `find` the first member of `relays[d]`
with the same `id` and, if any, set its `session` flag to `b`. -/
def toggleApply (s : SState) (r : Nat) (b : Bool) : SState :=
  match getSock s r with
  | none => s
  | some sock => sock.relays.foldl (toggleStep sock.id b) s

/-- One iteration of the splice loop of the relay socket `close` handler:
find the first id-matching member of `relays[d]` and splice it out. -/
def dropStep (s0 : SState) (i : String) (acc : List (String × List Nat))
    (d : String) : List (String × List Nat) :=
  match mget acc d with
  | none => acc
  | some refs =>
    match memberIdx s0 refs i with
    | none => acc
    | some j => mset acc d (refs.eraseIdx j)

/-- The splice loop of the relay socket `close` handler
(`src/index.js:528-538`): for each digest, remove the first id-matching
member of `relays[d]`.  The loop only touches `this.relays`; `s0` supplies
the (unchanging) heap for the `findIndex` id comparisons. -/
def dropRef (s0 : SState) (i : String) (m : List (String × List Nat))
    (ds : List String) : List (String × List Nat) :=
  ds.foldl (dropStep s0 i) m

/-- The relay socket `close` handler (`src/index.js:525-547`): detach the
handlers (modelled by `closed := true`), splice the first id-matching member
out of `relays[d]` for each `d` of `socket.relays`, then delete
`servers[socket.id]` if present. -/
def sdisconnectApply (s : SState) (r : Nat) : SState :=
  match getSock s r with
  | none => s
  | some sock =>
    let s0 := setSock s r { sock with closed := true }
    let s1 := { s0 with relaysM := dropRef s0 sock.id s0.relaysM sock.relays }
    if mhas s1.servers sock.id then { s1 with servers := mdel s1.servers sock.id } else s1

/-- The value of the identifier `hash` at `src/index.js:176` and `:189`.
`const hash` is declared only inside the `/signal` branch
(`src/index.js:137`), and `const` is block-scoped, so in the `/relay`
branch the name is unbound; an ES module runs in strict mode, so evaluating
it throws a `ReferenceError`.  The unbound lookup is embedded as `none`. -/
def relayBranchHashVar : Option String := none

/-- Outcome of the `/relay` accept path. -/
structure RelayAcceptOut where
  state : SState
  ref : Option Nat
  sentSession : Option SFrame
  threw : Bool
  rejected : Bool
deriving DecidableEq

/-- The `/relay` accept path of `ws.onConnection` (`src/index.js:155-193`)
with `limit.serverConnections = limit`.  On a valid request the socket is
registered in `servers`, then the code builds
`{…, relay: hash, action:'session'}`; by `relayBranchHashVar` the name
`hash` is unbound there, so a `ReferenceError` escapes before any frame is
sent (and before `onServerConnection` attaches the message handlers). -/
def relayAccept (s : SState) (limit : Nat) (digest id : String) : RelayAcceptOut :=
  if ¬ mhas s.relaysM digest ∨ mhas s.servers id then
    { state := s, ref := none, sentSession := none, threw := false, rejected := true }
  else
    match mget s.relaysM digest with
    | none =>
      { state := s, ref := none, sentSession := none, threw := false, rejected := true }
    | some refs =>
      if limit ≠ 0 ∧ limit ≤ refs.length then
        { state := s, ref := none, sentSession := none, threw := false, rejected := true }
      else
        let sock : RSocket :=
          { id := id, relay := some digest, relays := [], session := false,
            active := true, closed := false, address := none, web := none,
            host := none, port := none, domain := none }
        let ref := s.sockets.length
        let s1 := { s with sockets := s.sockets ++ [sock], servers := mset s.servers id ref }
        match relayBranchHashVar with
        | none => { state := s1, ref := some ref, sentSession := none, threw := true,
                    rejected := false }
        | some h =>
            { state := s1, ref := some ref,
              sentSession := some { id := s.selfId, relay := h, address := s.selfAddress,
                                    web := s.selfWeb, host := s.selfHost, port := s.selfPort,
                                    domain := s.selfDomain },
              threw := false, rejected := false }

/-- The dial branch of `relay.onPeer` (`src/index.js:278-302`, with the
default `limit.serverConnections = 0`): create an outbound socket to
`addr` for subscribed digest `ih`, with `id = sha1(addr)`, and register it
in `servers` immediately (before the WebSocket opens). -/
def dialApply (sha1 : String → String) (s : SState) (addr ih : String) : SState :=
  let sock : RSocket :=
    { id := sha1 addr, relay := some ih, relays := [], session := false,
      active := true, closed := false, address := none, web := none,
      host := none, port := none, domain := none }
  { s with sockets := s.sockets ++ [sock],
           servers := mset s.servers (sha1 addr) s.sockets.length }

/-- Actions of the mesh state machine. -/
inductive SAct where
  | accept (digest id : String)
  | dial (addr digest : String)
  | session (ref : Nat) (f : SFrame)
  | add (ref : Nat) (digest : String)
  | sub (ref : Nat) (digest : String)
  | ping (ref : Nat)
  | pong (ref : Nat)
  | toggle (ref : Nat) (b : Bool)
  | close (ref : Nat)
deriving DecidableEq

/-- Transition function (the `ping` handler only replies `pong` and does
not change state). -/
def sstepFn (sha1 : String → String) (s : SState) : SAct → SState
  | .accept d i => (relayAccept s 0 d i).state
  | .dial a d => dialApply sha1 s a d
  | .session r f => (sessionApply sha1 s r f).1
  | .add r d => addApply s r d
  | .sub r d => (subApply s r d).1
  | .ping _ => s
  | .pong r => pongApply s r
  | .toggle r b => toggleApply s r b
  | .close r => sdisconnectApply s r

/-- A socket object that exists and whose `close` event has not fired. -/
def liveSock (s : SState) (r : Nat) : Prop :=
  ∃ k, getSock s r = some k ∧ k.closed = false

/-- Enabling conditions, from the guarding code paths: `/relay` accepts
require a subscribed digest and a fresh id; dials (from `relay.onPeer`)
require a subscribed digest, a non-self peer and no existing `servers`
entry (the backoff gate only further restricts dialing); handler actions
require a socket whose handlers are still attached. -/
def SGuard (sha1 : String → String) (s : SState) : SAct → Prop
  | .accept d i => mhas s.relaysM d = true ∧ mhas s.servers i = false
  | .dial a d => mhas s.relaysM d = true ∧ a ≠ s.selfAddress ∧ sha1 a ≠ s.selfId ∧
      mhas s.servers (sha1 a) = false
  | .session r _ => liveSock s r
  | .add r _ => liveSock s r
  | .sub r _ => liveSock s r
  | .ping r => liveSock s r
  | .pong r => liveSock s r
  | .toggle r _ => liveSock s r
  | .close r => liveSock s r

/-- States reachable by the mesh machine. -/
inductive SReach (sha1 : String → String) (init : SState) : SState → Prop where
  | refl : SReach sha1 init init
  | step : ∀ {s} (a : SAct), SReach sha1 init s → SGuard sha1 s a →
      SReach sha1 init (sstepFn sha1 s a)

/-- Invariant (2) of the spec, as claimed: every member `r` of a membership
list `relays[d]` is the socket stored at `servers[r.id]`, and `d` is in
`r.relays`. -/
def MembershipInv (s : SState) : Prop :=
  ∀ d refs, mget s.relaysM d = some refs →
    ∀ r ∈ refs, ∃ k, getSock s r = some k ∧
      mget s.servers k.id = some r ∧ d ∈ k.relays

/-! ### Association-list and heap lemmas -/

theorem mget_mset_self {α : Type} (m : List (String × α)) (k : String) (v : α) :
    mget (mset m k v) k = some v := by
  induction m with
  | nil => simp [mget, mset]
  | cons p rest ih =>
      obtain ⟨k', v'⟩ := p
      by_cases h : k' = k
      · simp [mget, mset, h]
      · simp [mget, mset, h, ih]

theorem mget_mset_ne {α : Type} (m : List (String × α)) {k k' : String} (v : α)
    (h : k' ≠ k) : mget (mset m k v) k' = mget m k' := by
  have h' : k ≠ k' := Ne.symm h
  induction m with
  | nil => simp [mget, mset, h']
  | cons p rest ih =>
      obtain ⟨k₀, v₀⟩ := p
      by_cases hk : k₀ = k
      · subst hk
        simp [mget, mset, h']
      · simp [mget, mset, hk, ih]

theorem mset_mset_same {α : Type} (m : List (String × α)) (k : String) (v w : α) :
    mset (mset m k v) k w = mset m k w := by
  induction m with
  | nil => simp [mset]
  | cons p rest ih =>
      obtain ⟨k₀, v₀⟩ := p
      by_cases hk : k₀ = k
      · simp [mset, hk]
      · simp [mset, hk, ih]

theorem mset_eq_self {α : Type} {m : List (String × α)} {k : String} {v : α}
    (h : mget m k = some v) : mset m k v = m := by
  induction m with
  | nil => simp [mget] at h
  | cons p rest ih =>
      obtain ⟨k₀, v₀⟩ := p
      by_cases hk : k₀ = k
      · subst hk
        simp [mget] at h
        simp [mset, h]
      · simp [mget, hk] at h
        simp [mset, hk, ih h]

theorem mget_mdel_ne {α : Type} (m : List (String × α)) {k k' : String}
    (h : k' ≠ k) : mget (mdel m k) k' = mget m k' := by
  have h' : k ≠ k' := Ne.symm h
  induction m with
  | nil => rfl
  | cons p rest ih =>
      obtain ⟨k₀, v₀⟩ := p
      by_cases hk : k₀ = k
      · subst hk
        simp [mget, mdel, h']
      · simp [mget, mdel, hk, ih]

/-- Keys of an association list. -/
def mkeys {α : Type} (m : List (String × α)) : List String :=
  m.map Prod.fst

theorem mget_none_of_not_mem_mkeys {α : Type} {m : List (String × α)} {k : String}
    (h : k ∉ mkeys m) : mget m k = none := by
  induction m with
  | nil => rfl
  | cons p rest ih =>
      obtain ⟨k₀, v₀⟩ := p
      simp only [mkeys, List.map_cons, List.mem_cons] at h
      push_neg at h
      simp only [mget, if_neg (Ne.symm h.1)]
      exact ih h.2

theorem mem_mkeys_of_mget_some {α : Type} {m : List (String × α)} {k : String} {v : α}
    (h : mget m k = some v) : k ∈ mkeys m := by
  by_contra hk
  rw [mget_none_of_not_mem_mkeys hk] at h
  cases h

theorem mget_mdel_self {α : Type} {m : List (String × α)} (k : String)
    (hnd : (mkeys m).Nodup) : mget (mdel m k) k = none := by
  induction m with
  | nil => rfl
  | cons p rest ih =>
      obtain ⟨k₀, v₀⟩ := p
      simp only [mkeys, List.map_cons, List.nodup_cons] at hnd
      by_cases hk : k₀ = k
      · subst hk
        cases hg : mget rest k₀ with
        | none => simpa [mdel] using hg
        | some v =>
            exact absurd (by simpa [mkeys] using mem_mkeys_of_mget_some hg) hnd.1
      · simp only [mdel, if_neg hk, mget, if_neg hk]
        exact ih hnd.2

theorem mkeys_mset_mem {α : Type} {m : List (String × α)} {k : String} (v : α)
    (h : k ∈ mkeys m) : mkeys (mset m k v) = mkeys m := by
  induction m with
  | nil => simp [mkeys] at h
  | cons p rest ih =>
      obtain ⟨k₀, v₀⟩ := p
      by_cases hk : k₀ = k
      · subst hk
        simp [mset, mkeys]
      · simp only [mkeys, List.map_cons, List.mem_cons] at h
        rcases h with h | h
        · exact absurd h.symm hk
        · simp only [mset, if_neg hk, mkeys, List.map_cons]
          rw [show List.map Prod.fst (mset rest k v) = mkeys (mset rest k v) from rfl,
            ih h]
          rfl

theorem mkeys_mset_not_mem {α : Type} {m : List (String × α)} {k : String} (v : α)
    (h : k ∉ mkeys m) : mkeys (mset m k v) = mkeys m ++ [k] := by
  induction m with
  | nil => simp [mset, mkeys]
  | cons p rest ih =>
      obtain ⟨k₀, v₀⟩ := p
      simp only [mkeys, List.map_cons, List.mem_cons] at h
      push_neg at h
      simp only [mset, if_neg (fun hh : k₀ = k => h.1 hh.symm), mkeys, List.map_cons]
      rw [show List.map Prod.fst (mset rest k v) = mkeys (mset rest k v) from rfl,
        ih h.2]
      rfl

theorem mkeys_nodup_mset {α : Type} {m : List (String × α)} (k : String) (v : α)
    (h : (mkeys m).Nodup) : (mkeys (mset m k v)).Nodup := by
  by_cases hmem : k ∈ mkeys m
  · rw [mkeys_mset_mem v hmem]
    exact h
  · rw [mkeys_mset_not_mem v hmem]
    simpa [List.nodup_append] using ⟨h, hmem⟩

theorem jsFindIdx_eq_none {α : Type} {p : α → Bool} {l : List α}
    (h : ∀ x ∈ l, p x = false) : jsFindIdx p l = none := by
  induction l with
  | nil => rfl
  | cons x xs ih =>
      have hx := h x (List.mem_cons_self x xs)
      have ih' := ih (fun y hy => h y (List.mem_cons_of_mem x hy))
      simp [jsFindIdx, hx, ih']

theorem jsFindIdx_append_none {α : Type} {p : α → Bool} {l₁ : List α} (l₂ : List α)
    (h : ∀ x ∈ l₁, p x = false) :
    jsFindIdx p (l₁ ++ l₂) = (jsFindIdx p l₂).map (· + l₁.length) := by
  induction l₁ with
  | nil => cases hj : jsFindIdx p l₂ <;> simp [hj]
  | cons x xs ih =>
      have hx := h x (List.mem_cons_self x xs)
      have ih' := ih (fun y hy => h y (List.mem_cons_of_mem x hy))
      simp only [List.cons_append, jsFindIdx, hx, Bool.false_eq_true, if_false,
        List.append_eq, ih']
      cases hj : jsFindIdx p l₂ with
      | none => rfl
      | some i => simp [Nat.add_assoc]

theorem eraseIdx_append_length {α : Type} (l : List α) (a : α) :
    (l ++ [a]).eraseIdx l.length = l := by
  induction l with
  | nil => rfl
  | cons x xs ih => simp [List.eraseIdx, ih]

theorem list_set_getElem_self {α : Type} {l : List α} {i : Nat} {a : α}
    (h : l[i]? = some a) : l.set i a = l := by
  induction l generalizing i with
  | nil => simp at h
  | cons x xs ih =>
      cases i with
      | zero => simp at h; simp [h]
      | succ n =>
          simp at h
          simp [List.set, ih h]

theorem erase_append_singleton {l : List String} {d : String} (h : d ∉ l) :
    (l ++ [d]).erase d = l := by
  induction l with
  | nil => simp
  | cons x xs ih =>
      simp only [List.mem_cons] at h
      push_neg at h
      have hx : (x == d) = false := by
        simp only [beq_eq_false_iff_ne]
        exact Ne.symm h.1
      simp only [List.cons_append, List.erase_cons, hx, Bool.false_eq_true, if_false]
      rw [ih h.2]

/-! ### C7: session-frame validation -/

/-- **C7**: an incoming `session` frame whose `id` collides with a
subscribed digest, or whose `relay` differs from the digest expected on the
socket, or whose `id` is not the SHA-1 hex of its `address`, makes the
handler close the socket with the state untouched: every membership list is
unchanged and `session` is not set. -/
theorem c7_session_validation (sha1 : String → String) (s : SState) (r : Nat)
    (f : SFrame) (sock : RSocket) (hs : getSock s r = some sock)
    (hbad : mhas s.relaysM f.id = true ∨ sock.relay ≠ some f.relay ∨
      f.id ≠ sha1 f.address) :
    sessionApply sha1 s r f = (s, true) := by
  simp only [sessionApply, hs]
  rw [if_pos]
  rcases hbad with h | h | h
  · exact Or.inl (by simpa using h)
  · exact Or.inr (Or.inl h)
  · exact Or.inr (Or.inr h)

/-- A one-socket mesh state used to instantiate theorems at concrete
inputs. -/
def probeSock : RSocket :=
  { id := "p1", relay := some "d1", relays := [], session := false, active := true,
    closed := false, address := none, web := none, host := none, port := none,
    domain := none }

/-- A concrete stand-in for the external SHA-1 primitive. -/
def probeSha1 : String → String := fun a => String.append "h:" a

/-- Mesh state holding `probeSock`, registered and member of `relays["d1"]`. -/
def probeState : SState :=
  { selfId := "me", selfAddress := "host:1", selfWeb := "host:1", selfHost := "host",
    selfPort := 1, selfDomain := "", digests := ["d1"], sockets := [probeSock],
    servers := [("p1", 0)], relaysM := [("d1", [0])] }

/-- A session frame whose `relay` field does not match the socket's expected
digest. -/
def probeBadFrame : SFrame :=
  { id := "zz", relay := "other", address := "1.2.3.4:5", web := "w", host := "h",
    port := 5, domain := "" }

/-- **C7** (witness): the validation theorem evaluated on a concrete state
and a frame with a mismatched `relay` field. -/
theorem c7_session_validation_witness :
    sessionApply probeSha1 probeState 0 probeBadFrame = (probeState, true) :=
  c7_session_validation probeSha1 probeState 0 probeBadFrame probeSock rfl
    (Or.inr (Or.inl (by decide)))

/-! ### C9: `add` then `sub` on the same digest -/

/-- Socket for the C9 counterexample: already a member of `relays["d1"]`,
with `"d1"` and one further digest in its `relays` list. -/
def c9Sock : RSocket :=
  { id := "p1", relay := none, relays := ["d1", "d2"], session := true, active := true,
    closed := false, address := some "1.2.3.4:5", web := some "w", host := some "h",
    port := some 5, domain := some "" }

/-- Mesh state for the C9 counterexample. -/
def c9State : SState :=
  { selfId := "me", selfAddress := "host:1", selfWeb := "host:1", selfHost := "host",
    selfPort := 1, selfDomain := "", digests := ["d1", "d2"], sockets := [c9Sock],
    servers := [("p1", 0)], relaysM := [("d1", [0]), ("d2", [0])] }

/-- **C9** (counterexample): the claim quantifies over every pre-state,
including ones where the socket already is a member of `relays[d]`.  For
such a pre-state the `add` is a no-op but the `sub` removes the
pre-existing membership and digest, so the pair does not restore the
pre-state. -/
theorem c9_add_sub_counterexample :
    addApply c9State 0 "d1" = c9State ∧
      (subApply (addApply c9State 0 "d1") 0 "d1").1 ≠ c9State := by
  constructor
  · decide
  · decide

/-- **C9** (amended): `add {relay:d}` followed by `sub {relay:d}` leaves
both `relays[d]` and `socket.relays` exactly as before — provided the
socket was not already a member of `relays[d]` (no member with its `id`),
`d` was not already in `socket.relays`, and `socket.relays` was non-empty.
(If `socket.relays` was empty, the `sub` handler's only-digest check closes
the socket before undoing the `add`; if the socket was already a member or
carried `d`, the `sub` removes pre-existing state.) -/
theorem c9_add_sub_roundtrip (s : SState) (r : Nat) (d : String) (sock : RSocket)
    (refs : List Nat)
    (hs : getSock s r = some sock)
    (hm : mget s.relaysM d = some refs)
    (hnm : ∀ r' ∈ refs, idAt s r' ≠ some sock.id)
    (hnd : d ∉ sock.relays)
    (hne : sock.relays ≠ []) :
    subApply (addApply s r d) r d = (s, false) := by
  have hs' : s.sockets[r]? = some sock := hs
  have hr : r < s.sockets.length := by
    by_contra hcon
    rw [List.getElem?_eq_none (Nat.le_of_not_lt hcon)] at hs'
    cases hs'
  have hrn : r ∉ refs := by
    intro hmem
    exact hnm r hmem (by simp [idAt, getSock, hs'])
  have hmid : memberIdx s refs sock.id = none := by
    apply jsFindIdx_eq_none
    intro r' hr'
    exact decide_eq_false (hnm r' hr')
  have hadd : addApply s r d =
      setSock { s with relaysM := mset s.relaysM d (refs ++ [r]) } r
        { sock with relays := sock.relays ++ [d] } := by
    simp only [addApply, hs, hm, hmid, if_neg hnd]
  rw [hadd]
  have hgs : getSock (setSock { s with relaysM := mset s.relaysM d (refs ++ [r]) } r
      { sock with relays := sock.relays ++ [d] }) r =
      some { sock with relays := sock.relays ++ [d] } := by
    simp only [getSock, setSock]
    exact List.getElem?_set_eq_of_lt _ (by simpa using hr)
  have hmm : mget (setSock { s with relaysM := mset s.relaysM d (refs ++ [r]) } r
      { sock with relays := sock.relays ++ [d] }).relaysM d = some (refs ++ [r]) := by
    simp only [setSock]
    exact mget_mset_self s.relaysM d (refs ++ [r])
  have hlen : ¬(({ sock with relays := sock.relays ++ [d] } : RSocket).relays.length = 1 ∧
      d ∈ ({ sock with relays := sock.relays ++ [d] } : RSocket).relays) := by
    rintro ⟨h1, -⟩
    simp only [List.length_append, List.length_cons, List.length_nil] at h1
    have : sock.relays.length = 0 := by omega
    exact hne (List.eq_nil_of_length_eq_zero this)
  have hfind : memberIdx (setSock { s with relaysM := mset s.relaysM d (refs ++ [r]) } r
      { sock with relays := sock.relays ++ [d] }) (refs ++ [r])
      ({ sock with relays := sock.relays ++ [d] } : RSocket).id = some refs.length := by
    unfold memberIdx
    rw [jsFindIdx_append_none]
    · have hid : idAt (setSock { s with relaysM := mset s.relaysM d (refs ++ [r]) } r
          { sock with relays := sock.relays ++ [d] }) r =
          some ({ sock with relays := sock.relays ++ [d] } : RSocket).id := by
        simp [idAt, hgs]
      simp [jsFindIdx, hid]
    · intro r' hr'
      apply decide_eq_false
      have hner : r' ≠ r := fun hh => hrn (hh ▸ hr')
      have hsame : idAt (setSock { s with relaysM := mset s.relaysM d (refs ++ [r]) } r
          { sock with relays := sock.relays ++ [d] }) r' = idAt s r' := by
        simp only [idAt, getSock, setSock]
        rw [List.getElem?_set_ne (Ne.symm hner)]
      rw [hsame]
      exact hnm r' hr'
  have hdin : d ∈ ({ sock with relays := sock.relays ++ [d] } : RSocket).relays := by
    simp
  have hsockEta : ({ sock with relays := (sock.relays ++ [d]).erase d } : RSocket) = sock := by
    rw [erase_append_singleton hnd]
  simp only [subApply, hgs, hmm, if_neg hlen, hfind, if_pos hdin]
  rw [eraseIdx_append_length, hsockEta]
  simp only [setSock]
  rw [mset_mset_same, mset_eq_self hm, List.set_set, list_set_getElem_self hs']

/-- Socket for the C9 witness: not yet a member of `relays["d1"]`, one
other digest in its `relays` list. -/
def c9wSock : RSocket :=
  { id := "p2", relay := none, relays := ["d2"], session := true, active := true,
    closed := false, address := none, web := none, host := none, port := none,
    domain := none }

/-- Mesh state for the C9 witness. -/
def c9wState : SState :=
  { selfId := "me", selfAddress := "host:1", selfWeb := "host:1", selfHost := "host",
    selfPort := 1, selfDomain := "", digests := ["d1", "d2"], sockets := [c9wSock],
    servers := [("p2", 0)], relaysM := [("d1", []), ("d2", [0])] }

/-- **C9** (witness): the amended round-trip evaluated on a concrete state
satisfying its side conditions. -/
theorem c9_add_sub_roundtrip_witness :
    subApply (addApply c9wState 0 "d1") 0 "d1" = (c9wState, false) :=
  c9_add_sub_roundtrip c9wState 0 "d1" c9wSock [] rfl rfl
    (by intro r' hr'; cases hr') (by decide) (by decide)

/-! ### C5: the membership invariant of the mesh machine -/

theorem jsFindIdx_none_forall {α : Type} {p : α → Bool} {l : List α}
    (h : jsFindIdx p l = none) : ∀ x ∈ l, p x = false := by
  induction l with
  | nil => intro x hx; cases hx
  | cons y ys ih =>
      have hy : p y = false := by
        cases hpy : p y
        · rfl
        · simp [jsFindIdx, hpy] at h
      have hys : jsFindIdx p ys = none := by
        simp only [jsFindIdx, hy, Bool.false_eq_true, if_false] at h
        cases hj : jsFindIdx p ys
        · rfl
        · rw [hj] at h; cases h
      intro x hx
      rcases List.mem_cons.mp hx with rfl | hx'
      · exact hy
      · exact ih hys x hx'

theorem memberIdx_none_not_mem {s : SState} {refs : List Nat} {i : String} {r : Nat}
    (hr : idAt s r = some i) (h : memberIdx s refs i = none) : r ∉ refs := by
  intro hmem
  have hfalse := jsFindIdx_none_forall h r hmem
  rw [decide_eq_false_iff_not] at hfalse
  exact hfalse hr

theorem memberIdx_some_eraseIdx {s : SState} {i : String} {r : Nat}
    (hr : idAt s r = some i) :
    ∀ (refs : List Nat) (j : Nat), memberIdx s refs i = some j →
      (∀ y ∈ refs, idAt s y = some i → y = r) →
      refs.eraseIdx j = refs.erase r ∧ r ∈ refs := by
  intro refs
  induction refs with
  | nil => intro j hj; cases hj
  | cons y ys ih =>
      intro j hj huniq
      by_cases hy : idAt s y = some i
      · have hyr : y = r := huniq y (List.mem_cons_self y ys) hy
        subst hyr
        have h0 : memberIdx s (y :: ys) i = some 0 := by
          simp [memberIdx, jsFindIdx, hy]
        rw [h0] at hj
        injection hj with hj0
        subst hj0
        constructor
        · show (y :: ys).eraseIdx 0 = (y :: ys).erase y
          simp [List.eraseIdx, List.erase_cons]
        · exact List.mem_cons_self y ys
      · have hpy : decide (idAt s y = some i) = false := decide_eq_false hy
        have hyr : y ≠ r := fun hh => hy (hh ▸ hr)
        simp only [memberIdx, jsFindIdx, hpy, Bool.false_eq_true, if_false] at hj
        cases hys : jsFindIdx (fun r' => decide (idAt s r' = some i)) ys with
        | none => rw [hys] at hj; cases hj
        | some j' =>
            rw [hys] at hj
            simp only [Option.map_some'] at hj
            obtain ⟨hrec, hmem⟩ := ih j' (by simpa [memberIdx] using hys)
              (fun y' hy' hid => huniq y' (List.mem_cons_of_mem y hy') hid)
            injection hj with hj1
            subst hj1
            constructor
            · show (y :: ys).eraseIdx (j' + 1) = (y :: ys).erase r
              rw [List.eraseIdx_cons_succ, hrec, List.erase_cons,
                if_neg (by simp [hyr])]
            · exact List.mem_cons_of_mem y hmem

theorem pushStep_none {ref : Nat} {acc : List (String × List Nat)} {d : String}
    (h : mget acc d = none) : pushStep ref acc d = acc := by
  unfold pushStep
  rw [h]

theorem pushStep_some {ref : Nat} {acc : List (String × List Nat)} {d : String}
    {refs : List Nat} (h : mget acc d = some refs) :
    pushStep ref acc d = mset acc d (refs ++ [ref]) := by
  unfold pushStep
  rw [h]

theorem pushRef_cons (ref : Nat) (m : List (String × List Nat)) (d0 : String)
    (ds : List String) :
    pushRef ref m (d0 :: ds) = pushRef ref (pushStep ref m d0) ds := rfl

theorem dropStep_none {s0 : SState} {i : String} {acc : List (String × List Nat)}
    {d : String} (h : mget acc d = none) : dropStep s0 i acc d = acc := by
  unfold dropStep
  rw [h]

theorem dropStep_some_none {s0 : SState} {i : String} {acc : List (String × List Nat)}
    {d : String} {refs : List Nat} (h : mget acc d = some refs)
    (hfi : memberIdx s0 refs i = none) : dropStep s0 i acc d = acc := by
  unfold dropStep
  rw [h]
  show (match memberIdx s0 refs i with
        | none => acc
        | some j => mset acc d (refs.eraseIdx j)) = acc
  rw [hfi]

theorem dropStep_some_some {s0 : SState} {i : String} {acc : List (String × List Nat)}
    {d : String} {refs : List Nat} {j : Nat} (h : mget acc d = some refs)
    (hfi : memberIdx s0 refs i = some j) :
    dropStep s0 i acc d = mset acc d (refs.eraseIdx j) := by
  unfold dropStep
  rw [h]
  show (match memberIdx s0 refs i with
        | none => acc
        | some j => mset acc d (refs.eraseIdx j)) = mset acc d (refs.eraseIdx j)
  rw [hfi]

theorem dropRef_cons (s0 : SState) (i : String) (m : List (String × List Nat))
    (d0 : String) (ds : List String) :
    dropRef s0 i m (d0 :: ds) = dropRef s0 i (dropStep s0 i m d0) ds := rfl

theorem mget_pushRef_not_mem (ref : Nat) (ds : List String) (d : String) :
    ∀ m : List (String × List Nat), d ∉ ds → mget (pushRef ref m ds) d = mget m d := by
  induction ds with
  | nil => intro m _; rfl
  | cons d0 ds' ih =>
      intro m h
      simp only [List.mem_cons] at h
      push_neg at h
      rw [pushRef_cons, ih (pushStep ref m d0) h.2]
      cases hg : mget m d0 with
      | none => rw [pushStep_none hg]
      | some refs => rw [pushStep_some hg, mget_mset_ne m (refs ++ [ref]) h.1]

theorem mget_pushRef_mem (ref : Nat) (ds : List String) (d : String) :
    ∀ (m : List (String × List Nat)) (refs : List Nat), ds.Nodup → d ∈ ds →
      mget m d = some refs →
      mget (pushRef ref m ds) d = some (refs ++ [ref]) := by
  induction ds with
  | nil => intro m refs _ hmem; cases hmem
  | cons d0 ds' ih =>
      intro m refs hnd hmem hg
      obtain ⟨hd0, hnd'⟩ := List.nodup_cons.mp hnd
      rcases List.mem_cons.mp hmem with rfl | hmem'
      · rw [pushRef_cons, pushStep_some hg,
          mget_pushRef_not_mem ref ds' d (mset m d (refs ++ [ref])) hd0]
        exact mget_mset_self m d (refs ++ [ref])
      · have hne : d ≠ d0 := fun hh => hd0 (hh ▸ hmem')
        rw [pushRef_cons]
        cases hg0 : mget m d0 with
        | none =>
            rw [pushStep_none hg0]
            exact ih m refs hnd' hmem' hg
        | some refs0 =>
            rw [pushStep_some hg0]
            exact ih (mset m d0 (refs0 ++ [ref])) refs hnd' hmem'
              (by rw [mget_mset_ne m (refs0 ++ [ref]) hne]; exact hg)

theorem mkeys_pushRef (ref : Nat) (ds : List String) :
    ∀ m : List (String × List Nat), mkeys (pushRef ref m ds) = mkeys m := by
  induction ds with
  | nil => intro m; rfl
  | cons d0 ds' ih =>
      intro m
      rw [pushRef_cons, ih (pushStep ref m d0)]
      cases hg : mget m d0 with
      | none => rw [pushStep_none hg]
      | some refs =>
          rw [pushStep_some hg]
          exact mkeys_mset_mem (refs ++ [ref]) (mem_mkeys_of_mget_some hg)

theorem mget_dropRef_not_mem (s0 : SState) (i : String) (ds : List String)
    (d : String) :
    ∀ m : List (String × List Nat), d ∉ ds →
      mget (dropRef s0 i m ds) d = mget m d := by
  induction ds with
  | nil => intro m _; rfl
  | cons d0 ds' ih =>
      intro m h
      simp only [List.mem_cons] at h
      push_neg at h
      rw [dropRef_cons, ih (dropStep s0 i m d0) h.2]
      cases hg : mget m d0 with
      | none => rw [dropStep_none hg]
      | some refs =>
          cases hfi : memberIdx s0 refs i with
          | none => rw [dropStep_some_none hg hfi]
          | some j =>
              rw [dropStep_some_some hg hfi, mget_mset_ne m (refs.eraseIdx j) h.1]

theorem mget_dropRef_mem (s0 : SState) (i : String) (ds : List String) (d : String) :
    ∀ (m : List (String × List Nat)) (refs : List Nat), ds.Nodup → d ∈ ds →
      mget m d = some refs →
      mget (dropRef s0 i m ds) d =
        some (match memberIdx s0 refs i with
              | none => refs
              | some j => refs.eraseIdx j) := by
  induction ds with
  | nil => intro m refs _ hmem; cases hmem
  | cons d0 ds' ih =>
      intro m refs hnd hmem hg
      obtain ⟨hd0, hnd'⟩ := List.nodup_cons.mp hnd
      rcases List.mem_cons.mp hmem with rfl | hmem'
      · cases hfi : memberIdx s0 refs i with
        | none =>
            rw [dropRef_cons, dropStep_some_none hg hfi,
              mget_dropRef_not_mem s0 i ds' d m hd0]
            exact hg
        | some j =>
            rw [dropRef_cons, dropStep_some_some hg hfi,
              mget_dropRef_not_mem s0 i ds' d (mset m d (refs.eraseIdx j)) hd0]
            exact mget_mset_self m d (refs.eraseIdx j)
      · have hne : d ≠ d0 := fun hh => hd0 (hh ▸ hmem')
        rw [dropRef_cons]
        cases hg0 : mget m d0 with
        | none =>
            rw [dropStep_none hg0]
            exact ih m refs hnd' hmem' hg
        | some refs0 =>
            cases hfi : memberIdx s0 refs0 i with
            | none =>
                rw [dropStep_some_none hg0 hfi]
                exact ih m refs hnd' hmem' hg
            | some j =>
                rw [dropStep_some_some hg0 hfi]
                exact ih (mset m d0 (refs0.eraseIdx j)) refs hnd' hmem'
                  (by rw [mget_mset_ne m (refs0.eraseIdx j) hne]; exact hg)

theorem mkeys_dropRef (s0 : SState) (i : String) (ds : List String) :
    ∀ m : List (String × List Nat), mkeys (dropRef s0 i m ds) = mkeys m := by
  induction ds with
  | nil => intro m; rfl
  | cons d0 ds' ih =>
      intro m
      rw [dropRef_cons, ih (dropStep s0 i m d0)]
      cases hg : mget m d0 with
      | none => rw [dropStep_none hg]
      | some refs =>
          cases hfi : memberIdx s0 refs i with
          | none => rw [dropStep_some_none hg hfi]
          | some j =>
              rw [dropStep_some_some hg hfi]
              exact mkeys_mset_mem (refs.eraseIdx j) (mem_mkeys_of_mget_some hg)

/-- The inductive invariant of the mesh machine: the claimed membership
invariant together with the bookkeeping facts that make it stable —
`servers` entries are open sockets carrying their key as `id`, open sockets
are registered under their `id`, membership lists and `relays` lists are
duplicate-free, and both indexes have duplicate-free keys. -/
def SInv (s : SState) : Prop :=
  MembershipInv s ∧
  (∀ i r, mget s.servers i = some r →
    ∃ k, getSock s r = some k ∧ k.id = i ∧ k.closed = false) ∧
  (∀ r k, getSock s r = some k → k.closed = false → mget s.servers k.id = some r) ∧
  (∀ d refs, mget s.relaysM d = some refs → refs.Nodup) ∧
  (∀ r k, getSock s r = some k → k.relays.Nodup) ∧
  (mkeys s.servers).Nodup ∧ (mkeys s.relaysM).Nodup

theorem getSock_lt_length {s : SState} {r : Nat} {k : RSocket}
    (h : getSock s r = some k) : r < s.sockets.length := by
  by_contra hcon
  unfold getSock at h
  rw [List.getElem?_eq_none (Nat.le_of_not_lt hcon)] at h
  cases h

theorem mget_some_ne_key_of_none {α : Type} {m : List (String × α)} {i j : String}
    {v : α} (hi : mget m i = none) (hj : mget m j = some v) : j ≠ i := by
  intro h
  rw [h, hi] at hj
  cases hj

theorem mhas_false_mget_none {α : Type} {m : List (String × α)} {i : String}
    (h : mhas m i = false) : mget m i = none := by
  unfold mhas at h
  cases hg : mget m i
  · rfl
  · rw [hg] at h
    cases h

/-- Under the invariant, the only id-matching member a membership list can
contain is the socket registered under that id. -/
theorem member_id_uniq {s : SState} (hinv : SInv s) {d : String} {refs : List Nat}
    (hm : mget s.relaysM d = some refs) {i : String} {r : Nat}
    (hsrv : mget s.servers i = some r) :
    ∀ y ∈ refs, idAt s y = some i → y = r := by
  intro y hy hid
  obtain ⟨k, hk, hks, -⟩ := hinv.1 d refs hm y hy
  have hki : k.id = i := by
    unfold idAt at hid
    rw [hk] at hid
    simpa using hid
  rw [hki, hsrv] at hks
  exact (Option.some.inj hks).symm

theorem foldl_mset_nil_values (ds : List String) :
    ∀ m : List (String × List Nat),
      (∀ d refs, mget m d = some refs → refs = []) →
      ∀ d refs,
        mget (ds.foldl (fun acc d => mset acc d ([] : List Nat)) m) d = some refs →
        refs = [] := by
  induction ds with
  | nil => intro m h; exact h
  | cons d0 ds' ih =>
      intro m h
      simp only [List.foldl_cons]
      apply ih
      intro d refs hg
      by_cases hd : d = d0
      · subst hd
        rw [mget_mset_self] at hg
        exact (Option.some.inj hg).symm
      · rw [mget_mset_ne m ([] : List Nat) hd] at hg
        exact h d refs hg

theorem foldl_mset_keys_nodup {α : Type} (v : α) (ds : List String) :
    ∀ m : List (String × α), (mkeys m).Nodup →
      (mkeys (ds.foldl (fun acc d => mset acc d v) m)).Nodup := by
  induction ds with
  | nil => intro m h; exact h
  | cons d0 ds' ih =>
      intro m h
      simp only [List.foldl_cons]
      exact ih (mset m d0 v) (mkeys_nodup_mset d0 v h)

theorem jsFindIdx_some_mem {α : Type} {p : α → Bool} {l : List α} {j : Nat}
    (h : jsFindIdx p l = some j) : ∃ x ∈ l, p x = true := by
  induction l generalizing j with
  | nil => cases h
  | cons y ys ih =>
      by_cases hy : p y = true
      · exact ⟨y, List.mem_cons_self y ys, hy⟩
      · have hy' : p y = false := by
          cases hpy : p y
          · rfl
          · exact absurd hpy hy
        simp only [jsFindIdx, hy', Bool.false_eq_true, if_false] at h
        cases hys : jsFindIdx p ys with
        | none => rw [hys] at h; cases h
        | some j' =>
            obtain ⟨x, hx, hpx⟩ := ih hys
            exact ⟨x, List.mem_cons_of_mem y hx, hpx⟩

theorem nodup_append_singleton {α : Type} {l : List α} {a : α} (h : l.Nodup)
    (ha : a ∉ l) : (l ++ [a]).Nodup := by
  simpa [List.nodup_append] using ⟨h, ha⟩

theorem mkeys_mdel_sublist {α : Type} (m : List (String × α)) (k : String) :
    (mkeys (mdel m k)).Sublist (mkeys m) := by
  induction m with
  | nil => exact List.Sublist.refl _
  | cons p rest ih =>
      obtain ⟨k₀, v₀⟩ := p
      by_cases hk : k₀ = k
      · subst hk
        simp only [mdel, if_pos rfl, mkeys, List.map_cons]
        exact List.sublist_cons_self k₀ (mkeys rest)
      · simp only [mdel, if_neg hk, mkeys, List.map_cons]
        exact List.Sublist.cons₂ k₀ ih

theorem getSock_setSock_self {s : SState} {r : Nat} {k : RSocket} (k' : RSocket)
    (h : getSock s r = some k) : getSock (setSock s r k') r = some k' := by
  show (s.sockets.set r k')[r]? = some k'
  exact List.getElem?_set_eq_of_lt k' (getSock_lt_length h)

theorem getSock_setSock_ne {s : SState} (r : Nat) {r' : Nat} (k' : RSocket)
    (h : r ≠ r') : getSock (setSock s r k') r' = getSock s r' := by
  show (s.sockets.set r k')[r']? = s.sockets[r']?
  exact List.getElem?_set_ne h

/-- The invariant holds in the boot state. -/
theorem sInv_init (selfId selfAddress selfWeb selfHost : String) (selfPort : ℤ)
    (selfDomain : String) (digests : List String) :
    SInv (sInit selfId selfAddress selfWeb selfHost selfPort selfDomain digests) := by
  refine ⟨?_, ?_, ?_, ?_, ?_, ?_, ?_⟩
  · intro d refs hm r hr
    have : refs = [] :=
      foldl_mset_nil_values digests [] (by intro d' refs' h; cases h) d refs hm
    subst this
    cases hr
  · intro i r h
    cases h
  · intro r k h
    cases h
  · intro d refs hm
    have : refs = [] :=
      foldl_mset_nil_values digests [] (by intro d' refs' h; cases h) d refs hm
    subst this
    exact List.nodup_nil
  · intro r k h
    cases h
  · exact List.nodup_nil
  · exact foldl_mset_keys_nodup ([] : List Nat) digests [] List.nodup_nil

/-- Registering a fresh open socket with an unused id (the shared effect of
the `/relay` accept path and the dial path) preserves the invariant. -/
theorem sinv_register {s : SState} (hinv : SInv s) (k : RSocket) {i : String}
    (hfresh : mget s.servers i = none)
    (hid : k.id = i) (hcl : k.closed = false) (hrel : k.relays = []) :
    SInv { s with sockets := s.sockets ++ [k],
                  servers := mset s.servers i s.sockets.length } := by
  obtain ⟨hmem, hsrv, hlive, hrefs, hrl, hknd, hkr⟩ := hinv
  have hget_lt : ∀ {y : Nat} {ky : RSocket}, getSock s y = some ky →
      (s.sockets ++ [k])[y]? = some ky := by
    intro y ky h
    rw [List.getElem?_append_left (getSock_lt_length h)]
    exact h
  have hget_new : (s.sockets ++ [k])[s.sockets.length]? = some k := by simp
  have hget_cases : ∀ {y : Nat} {ky : RSocket}, (s.sockets ++ [k])[y]? = some ky →
      getSock s y = some ky ∨ (y = s.sockets.length ∧ ky = k) := by
    intro y ky h
    by_cases hy : y < s.sockets.length
    · left
      rw [List.getElem?_append_left hy] at h
      exact h
    · right
      have hlen : y < s.sockets.length + 1 := by
        by_contra hc
        rw [List.getElem?_eq_none (by simpa using Nat.le_of_not_lt hc)] at h
        cases h
      have hyeq : y = s.sockets.length := by omega
      subst hyeq
      rw [hget_new] at h
      exact ⟨rfl, (Option.some.inj h).symm⟩
  refine ⟨?_, ?_, ?_, ?_, ?_, ?_, ?_⟩
  · intro d refs hm y hy
    obtain ⟨ky, hky, hks, hd'⟩ := hmem d refs hm y hy
    refine ⟨ky, hget_lt hky, ?_, hd'⟩
    have hne : ky.id ≠ i := mget_some_ne_key_of_none hfresh hks
    rw [mget_mset_ne s.servers s.sockets.length hne]
    exact hks
  · intro i' y h
    by_cases hi : i' = i
    · subst hi
      rw [mget_mset_self] at h
      have hy : s.sockets.length = y := Option.some.inj h
      subst hy
      exact ⟨k, hget_new, hid, hcl⟩
    · rw [mget_mset_ne s.servers s.sockets.length hi] at h
      obtain ⟨ky, hky, hki, hkc⟩ := hsrv i' y h
      exact ⟨ky, hget_lt hky, hki, hkc⟩
  · intro y ky h hyc
    rcases hget_cases h with h' | ⟨hy, hk'⟩
    · have hne : ky.id ≠ i := by
        intro hh
        have hreg := hlive y ky h' hyc
        rw [hh, hfresh] at hreg
        cases hreg
      rw [mget_mset_ne s.servers s.sockets.length hne]
      exact hlive y ky h' hyc
    · subst hy
      subst hk'
      rw [hid, mget_mset_self]
  · exact hrefs
  · intro y ky h
    rcases hget_cases h with h' | ⟨-, hk'⟩
    · exact hrl y ky h'
    · subst hk'
      rw [hrel]
      exact List.nodup_nil
  · exact mkeys_nodup_mset i s.sockets.length hknd
  · exact hkr

/-- The `/relay` accept path preserves the invariant (for any connection
cap). -/
theorem sinv_accept {s : SState} (hinv : SInv s) (lim : Nat) (d i : String) :
    SInv (relayAccept s lim d i).state := by
  unfold relayAccept
  split
  · exact hinv
  · next hcond =>
      split
      · exact hinv
      · split
        · exact hinv
        · push_neg at hcond
          refine sinv_register hinv _ ?_ rfl rfl rfl
          cases hb : mhas s.servers i
          · exact mhas_false_mget_none hb
          · exact absurd hb hcond.2

/-- The dial path preserves the invariant, given no `servers` entry for the
dialed peer (checked by `relay.onPeer` before dialing). -/
theorem sinv_dial {s : SState} (hinv : SInv s) (sha1 : String → String)
    (addr ih : String) (hfresh : mhas s.servers (sha1 addr) = false) :
    SInv (dialApply sha1 s addr ih) := by
  unfold dialApply
  exact sinv_register hinv _ (mhas_false_mget_none hfresh) rfl rfl rfl

/-- Overwriting one heap socket while keeping its `id`, `relays` and
`closed` fields (as `pong`, `on` and `off` do) preserves the invariant. -/
theorem sinv_heapField {s : SState} (hinv : SInv s) {r : Nat} {k k' : RSocket}
    (hk : getSock s r = some k) (hid : k'.id = k.id) (hrel : k'.relays = k.relays)
    (hcl : k'.closed = k.closed) : SInv (setSock s r k') := by
  obtain ⟨hmem, hsrv, hlive, hrefs, hrl, hknd, hkr⟩ := hinv
  have hcases : ∀ {y : Nat} {ky : RSocket}, getSock (setSock s r k') y = some ky →
      (y ≠ r ∧ getSock s y = some ky) ∨ (y = r ∧ ky = k') := by
    intro y ky h
    by_cases hy : y = r
    · subst hy
      rw [getSock_setSock_self k' hk] at h
      exact Or.inr ⟨rfl, (Option.some.inj h).symm⟩
    · rw [getSock_setSock_ne r k' (Ne.symm hy)] at h
      exact Or.inl ⟨hy, h⟩
  refine ⟨?_, ?_, ?_, ?_, ?_, ?_, ?_⟩
  · intro d refs hm y hy
    obtain ⟨ky, hky, hsy, hdy⟩ := hmem d refs hm y hy
    by_cases hyr : y = r
    · subst hyr
      have hkyk : ky = k := by
        rw [hk] at hky
        exact (Option.some.inj hky).symm
      subst hkyk
      refine ⟨k', getSock_setSock_self k' hk, ?_, ?_⟩
      · rw [hid]
        exact hsy
      · rw [hrel]
        exact hdy
    · exact ⟨ky, by rw [getSock_setSock_ne r k' (Ne.symm hyr)]; exact hky, hsy, hdy⟩
  · intro i y h
    obtain ⟨ky, hky, hki, hkc⟩ := hsrv i y h
    by_cases hyr : y = r
    · subst hyr
      have hkyk : ky = k := by
        rw [hk] at hky
        exact (Option.some.inj hky).symm
      subst hkyk
      exact ⟨k', getSock_setSock_self k' hk, by rw [hid]; exact hki,
        by rw [hcl]; exact hkc⟩
    · exact ⟨ky, by rw [getSock_setSock_ne r k' (Ne.symm hyr)]; exact hky, hki, hkc⟩
  · intro y ky h hyc
    rcases hcases h with ⟨hyr, h'⟩ | ⟨hyr, hky⟩
    · exact hlive y ky h' hyc
    · subst hky
      rw [hid, hyr]
      exact hlive r k hk (by rw [← hcl]; exact hyc)
  · exact hrefs
  · intro y ky h
    rcases hcases h with ⟨-, h'⟩ | ⟨hyr, hky⟩
    · exact hrl y ky h'
    · subst hky
      rw [hrel]
      exact hrl r k hk
  · exact hknd
  · exact hkr

/-- The `pong` handler preserves the invariant. -/
theorem sinv_pong {s : SState} (hinv : SInv s) (r : Nat) :
    SInv (pongApply s r) := by
  unfold pongApply
  cases hg : getSock s r with
  | none => exact hinv
  | some sock =>
      show SInv (setSock s r { sock with active := true })
      exact sinv_heapField hinv hg rfl rfl rfl

/-- One `on` / `off` iteration preserves the invariant. -/
theorem sinv_toggleStep {acc : SState} (hinv : SInv acc) (i : String) (b : Bool)
    (d : String) : SInv (toggleStep i b acc d) := by
  unfold toggleStep
  split
  · exact hinv
  · split
    · exact hinv
    · split
      · exact hinv
      · next k hk => exact sinv_heapField hinv hk rfl rfl rfl

/-- The `on` / `off` handlers preserve the invariant. -/
theorem sinv_toggle {s : SState} (hinv : SInv s) (r : Nat) (b : Bool) :
    SInv (toggleApply s r b) := by
  unfold toggleApply
  cases hg : getSock s r with
  | none => exact hinv
  | some sock =>
      show SInv (sock.relays.foldl (toggleStep sock.id b) s)
      clear hg
      generalize sock.relays = ds
      induction ds generalizing s with
      | nil => exact hinv
      | cons d0 ds' ih =>
          simp only [List.foldl_cons]
          exact ih (sinv_toggleStep hinv sock.id b d0)

/-- The `add` handler preserves the invariant for a live handler socket. -/
theorem sinv_add {s : SState} (hinv : SInv s) {r : Nat} {k : RSocket}
    (hk : getSock s r = some k) (hcl : k.closed = false) (d : String) :
    SInv (addApply s r d) := by
  have hsrvk : mget s.servers k.id = some r := hinv.2.2.1 r k hk hcl
  have hidr : idAt s r = some k.id := by simp [idAt, hk]
  cases hm : mget s.relaysM d with
  | none => simpa [addApply, hk, hm] using hinv
  | some refs =>
      cases hmi : memberIdx s refs k.id with
      | some j =>
          have hd : d ∈ k.relays := by
            obtain ⟨y, hy, hpy⟩ := jsFindIdx_some_mem hmi
            rw [decide_eq_true_eq] at hpy
            have hyr : y = r := member_id_uniq hinv hm hsrvk y hy hpy
            subst hyr
            obtain ⟨k0, hk0, -, hd0⟩ := hinv.1 d refs hm y hy
            rw [hk] at hk0
            exact (Option.some.inj hk0).symm ▸ hd0
          simpa [addApply, hk, hm, hmi, hd] using hinv
      | none =>
          have hrn : r ∉ refs := memberIdx_none_not_mem hidr hmi
          obtain ⟨hmem, hsrv, hlive, hrefs, hrl, hknd, hkr⟩ := hinv
          by_cases hd : d ∈ k.relays
          · have hstate : addApply s r d =
                { s with relaysM := mset s.relaysM d (refs ++ [r]) } := by
              simp [addApply, hk, hm, hmi, hd]
            rw [hstate]
            refine ⟨?_, hsrv, hlive, ?_, hrl, hknd,
              mkeys_nodup_mset d (refs ++ [r]) hkr⟩
            · intro d' refs' hm' y hy
              have hm'' : mget (mset s.relaysM d (refs ++ [r])) d' = some refs' := hm'
              by_cases hdd : d' = d
              · rw [hdd] at hm'' ⊢
                rw [mget_mset_self] at hm''
                have hre : refs' = refs ++ [r] := (Option.some.inj hm'').symm
                subst hre
                rcases List.mem_append.mp hy with hy' | hy'
                · exact hmem d refs hm y hy'
                · have hyr : y = r := by simpa using hy'
                  rw [hyr]
                  exact ⟨k, hk, hsrvk, hd⟩
              · rw [mget_mset_ne s.relaysM (refs ++ [r]) hdd] at hm''
                exact hmem d' refs' hm'' y hy
            · intro d' refs' hm'
              have hm'' : mget (mset s.relaysM d (refs ++ [r])) d' = some refs' := hm'
              by_cases hdd : d' = d
              · rw [hdd] at hm''
                rw [mget_mset_self] at hm''
                have hre : refs' = refs ++ [r] := (Option.some.inj hm'').symm
                subst hre
                exact nodup_append_singleton (hrefs d refs hm) hrn
              · rw [mget_mset_ne s.relaysM (refs ++ [r]) hdd] at hm''
                exact hrefs d' refs' hm''
          · have hstate : addApply s r d =
                setSock { s with relaysM := mset s.relaysM d (refs ++ [r]) } r
                  { k with relays := k.relays ++ [d] } := by
              simp [addApply, hk, hm, hmi, hd]
            rw [hstate]
            have hkM : getSock { s with relaysM := mset s.relaysM d (refs ++ [r]) } r
                = some k := hk
            have hself := getSock_setSock_self
              (s := { s with relaysM := mset s.relaysM d (refs ++ [r]) })
              ({ k with relays := k.relays ++ [d] }) hkM
            have hother : ∀ {y : Nat}, y ≠ r →
                getSock (setSock { s with relaysM := mset s.relaysM d (refs ++ [r]) } r
                  { k with relays := k.relays ++ [d] }) y = getSock s y := by
              intro y hy
              exact getSock_setSock_ne r _ (Ne.symm hy)
            refine ⟨?_, ?_, ?_, ?_, ?_, hknd, mkeys_nodup_mset d (refs ++ [r]) hkr⟩
            · intro d' refs' hm' y hy
              have hm'' : mget (mset s.relaysM d (refs ++ [r])) d' = some refs' := hm'
              by_cases hdd : d' = d
              · rw [hdd] at hm'' ⊢
                rw [mget_mset_self] at hm''
                have hre : refs' = refs ++ [r] := (Option.some.inj hm'').symm
                subst hre
                rcases List.mem_append.mp hy with hy' | hy'
                · obtain ⟨ky, hky, hsy, hdy⟩ := hmem d refs hm y hy'
                  have hyr : y ≠ r := fun hh => hrn (hh ▸ hy')
                  exact ⟨ky, by rw [hother hyr]; exact hky, hsy, hdy⟩
                · have hyr : y = r := by simpa using hy'
                  rw [hyr]
                  exact ⟨{ k with relays := k.relays ++ [d] }, hself, hsrvk, by simp⟩
              · rw [mget_mset_ne s.relaysM (refs ++ [r]) hdd] at hm''
                obtain ⟨ky, hky, hsy, hdy⟩ := hmem d' refs' hm'' y hy
                by_cases hyr : y = r
                · rw [hyr] at hky hsy ⊢
                  have hkyk : ky = k := by
                    rw [hk] at hky
                    exact (Option.some.inj hky).symm
                  rw [hkyk] at hsy hdy
                  exact ⟨{ k with relays := k.relays ++ [d] }, hself, hsy,
                    by simp [hdy]⟩
                · exact ⟨ky, by rw [hother hyr]; exact hky, hsy, hdy⟩
            · intro i y h
              obtain ⟨ky, hky, hki, hkc⟩ := hsrv i y h
              by_cases hyr : y = r
              · rw [hyr] at hky ⊢
                have hkyk : ky = k := by
                  rw [hk] at hky
                  exact (Option.some.inj hky).symm
                rw [hkyk] at hki hkc
                exact ⟨{ k with relays := k.relays ++ [d] }, hself, hki, hkc⟩
              · exact ⟨ky, by rw [hother hyr]; exact hky, hki, hkc⟩
            · intro y ky h hyc
              by_cases hyr : y = r
              · rw [hyr] at h ⊢
                rw [hself] at h
                have hkyk : ky = { k with relays := k.relays ++ [d] } :=
                  (Option.some.inj h).symm
                rw [hkyk] at hyc ⊢
                exact hlive r k hk hyc
              · rw [hother hyr] at h
                exact hlive y ky h hyc
            · intro d' refs' hm'
              have hm'' : mget (mset s.relaysM d (refs ++ [r])) d' = some refs' := hm'
              by_cases hdd : d' = d
              · rw [hdd] at hm''
                rw [mget_mset_self] at hm''
                have hre : refs' = refs ++ [r] := (Option.some.inj hm'').symm
                subst hre
                exact nodup_append_singleton (hrefs d refs hm) hrn
              · rw [mget_mset_ne s.relaysM (refs ++ [r]) hdd] at hm''
                exact hrefs d' refs' hm''
            · intro y ky h
              by_cases hyr : y = r
              · rw [hyr] at h
                rw [hself] at h
                have hkyk : ky = { k with relays := k.relays ++ [d] } :=
                  (Option.some.inj h).symm
                rw [hkyk]
                exact nodup_append_singleton (hrl r k hk) hd
              · rw [hother hyr] at h
                exact hrl y ky h

/-- The `sub` handler preserves the invariant for a live handler socket. -/
theorem sinv_sub {s : SState} (hinv : SInv s) {r : Nat} {k : RSocket}
    (hk : getSock s r = some k) (hcl : k.closed = false) (d : String) :
    SInv (subApply s r d).1 := by
  have hsrvk : mget s.servers k.id = some r := hinv.2.2.1 r k hk hcl
  have hidr : idAt s r = some k.id := by simp [idAt, hk]
  cases hm : mget s.relaysM d with
  | none => simpa [subApply, hk, hm] using hinv
  | some refs =>
      by_cases hone : k.relays.length = 1 ∧ d ∈ k.relays
      · simpa [subApply, hk, hm, hone] using hinv
      · have huniq := member_id_uniq hinv hm hsrvk
        cases hmi : memberIdx s refs k.id with
        | none =>
            have hrn : r ∉ refs := memberIdx_none_not_mem hidr hmi
            by_cases hd : d ∈ k.relays
            · have hlen1 : ¬ k.relays.length = 1 := fun hh => hone ⟨hh, hd⟩
              have hstate : (subApply s r d).1 =
                  setSock s r { k with relays := k.relays.erase d } := by
                simp [subApply, hk, hm, hone, hmi, hd, hlen1]
              rw [hstate]
              obtain ⟨hmem, hsrv, hlive, hrefs, hrl, hknd, hkr⟩ := hinv
              have hself := getSock_setSock_self (s := s)
                ({ k with relays := k.relays.erase d }) hk
              have hother : ∀ {y : Nat}, y ≠ r →
                  getSock (setSock s r { k with relays := k.relays.erase d }) y =
                    getSock s y := by
                intro y hy
                exact getSock_setSock_ne r _ (Ne.symm hy)
              refine ⟨?_, ?_, ?_, hrefs, ?_, hknd, hkr⟩
              · intro d' refs' hm' y hy
                have hm'' : mget s.relaysM d' = some refs' := hm'
                obtain ⟨ky, hky, hsy, hdy⟩ := hmem d' refs' hm'' y hy
                by_cases hyr : y = r
                · have hdd : d' ≠ d := by
                    intro hh
                    rw [hh, hm] at hm''
                    have hre : refs = refs' := Option.some.inj hm''
                    exact hrn (hyr ▸ hre.symm ▸ hy)
                  rw [hyr] at hky hsy ⊢
                  have hkyk : ky = k := by
                    rw [hk] at hky
                    exact (Option.some.inj hky).symm
                  rw [hkyk] at hsy hdy
                  exact ⟨{ k with relays := k.relays.erase d }, hself, hsy,
                    (List.mem_erase_of_ne hdd).mpr hdy⟩
                · exact ⟨ky, by rw [hother hyr]; exact hky, hsy, hdy⟩
              · intro i y h
                obtain ⟨ky, hky, hki, hkc⟩ := hsrv i y h
                by_cases hyr : y = r
                · rw [hyr] at hky ⊢
                  have hkyk : ky = k := by
                    rw [hk] at hky
                    exact (Option.some.inj hky).symm
                  rw [hkyk] at hki hkc
                  exact ⟨{ k with relays := k.relays.erase d }, hself, hki, hkc⟩
                · exact ⟨ky, by rw [hother hyr]; exact hky, hki, hkc⟩
              · intro y ky h hyc
                by_cases hyr : y = r
                · rw [hyr] at h ⊢
                  rw [hself] at h
                  have hkyk : ky = { k with relays := k.relays.erase d } :=
                    (Option.some.inj h).symm
                  rw [hkyk] at hyc ⊢
                  exact hlive r k hk hyc
                · rw [hother hyr] at h
                  exact hlive y ky h hyc
              · intro y ky h
                by_cases hyr : y = r
                · rw [hyr] at h
                  rw [hself] at h
                  have hkyk : ky = { k with relays := k.relays.erase d } :=
                    (Option.some.inj h).symm
                  rw [hkyk]
                  exact (hrl r k hk).erase d
                · rw [hother hyr] at h
                  exact hrl y ky h
            · simpa [subApply, hk, hm, hone, hmi, hd] using hinv
        | some j =>
            obtain ⟨herase, hrin⟩ := memberIdx_some_eraseIdx hidr refs j hmi huniq
            have hd : d ∈ k.relays := by
              obtain ⟨k0, hk0, -, hd0⟩ := hinv.1 d refs hm r hrin
              rw [hk] at hk0
              exact (Option.some.inj hk0).symm ▸ hd0
            have hlen1 : ¬ k.relays.length = 1 := fun hh => hone ⟨hh, hd⟩
            have hstate : (subApply s r d).1 =
                setSock { s with relaysM := mset s.relaysM d (refs.eraseIdx j) } r
                  { k with relays := k.relays.erase d } := by
              simp [subApply, hk, hm, hone, hmi, hd, hlen1]
            rw [hstate, herase]
            obtain ⟨hmem, hsrv, hlive, hrefs, hrl, hknd, hkr⟩ := hinv
            have hkM : getSock { s with relaysM := mset s.relaysM d (refs.erase r) } r
                = some k := hk
            have hself := getSock_setSock_self
              (s := { s with relaysM := mset s.relaysM d (refs.erase r) })
              ({ k with relays := k.relays.erase d }) hkM
            have hother : ∀ {y : Nat}, y ≠ r →
                getSock (setSock { s with relaysM := mset s.relaysM d (refs.erase r) } r
                  { k with relays := k.relays.erase d }) y = getSock s y := by
              intro y hy
              exact getSock_setSock_ne r _ (Ne.symm hy)
            refine ⟨?_, ?_, ?_, ?_, ?_, hknd, mkeys_nodup_mset d (refs.erase r) hkr⟩
            · intro d' refs' hm' y hy
              have hm'' : mget (mset s.relaysM d (refs.erase r)) d' = some refs' := hm'
              by_cases hdd : d' = d
              · rw [hdd] at hm'' ⊢
                rw [mget_mset_self] at hm''
                have hre : refs' = refs.erase r := (Option.some.inj hm'').symm
                subst hre
                have hy' : y ≠ r ∧ y ∈ refs :=
                  (List.Nodup.mem_erase_iff (hrefs d refs hm)).mp hy
                obtain ⟨ky, hky, hsy, hdy⟩ := hmem d refs hm y hy'.2
                exact ⟨ky, by rw [hother hy'.1]; exact hky, hsy, hdy⟩
              · rw [mget_mset_ne s.relaysM (refs.erase r) hdd] at hm''
                obtain ⟨ky, hky, hsy, hdy⟩ := hmem d' refs' hm'' y hy
                by_cases hyr : y = r
                · have hdd' : d' ≠ d := hdd
                  rw [hyr] at hky hsy ⊢
                  have hkyk : ky = k := by
                    rw [hk] at hky
                    exact (Option.some.inj hky).symm
                  rw [hkyk] at hsy hdy
                  exact ⟨{ k with relays := k.relays.erase d }, hself, hsy,
                    (List.mem_erase_of_ne hdd').mpr hdy⟩
                · exact ⟨ky, by rw [hother hyr]; exact hky, hsy, hdy⟩
            · intro i y h
              obtain ⟨ky, hky, hki, hkc⟩ := hsrv i y h
              by_cases hyr : y = r
              · rw [hyr] at hky ⊢
                have hkyk : ky = k := by
                  rw [hk] at hky
                  exact (Option.some.inj hky).symm
                rw [hkyk] at hki hkc
                exact ⟨{ k with relays := k.relays.erase d }, hself, hki, hkc⟩
              · exact ⟨ky, by rw [hother hyr]; exact hky, hki, hkc⟩
            · intro y ky h hyc
              by_cases hyr : y = r
              · rw [hyr] at h ⊢
                rw [hself] at h
                have hkyk : ky = { k with relays := k.relays.erase d } :=
                  (Option.some.inj h).symm
                rw [hkyk] at hyc ⊢
                exact hlive r k hk hyc
              · rw [hother hyr] at h
                exact hlive y ky h hyc
            · intro d' refs' hm'
              have hm'' : mget (mset s.relaysM d (refs.erase r)) d' = some refs' := hm'
              by_cases hdd : d' = d
              · rw [hdd] at hm''
                rw [mget_mset_self] at hm''
                have hre : refs' = refs.erase r := (Option.some.inj hm'').symm
                subst hre
                exact (hrefs d refs hm).erase r
              · rw [mget_mset_ne s.relaysM (refs.erase r) hdd] at hm''
                exact hrefs d' refs' hm''
            · intro y ky h
              by_cases hyr : y = r
              · rw [hyr] at h
                rw [hself] at h
                have hkyk : ky = { k with relays := k.relays.erase d } :=
                  (Option.some.inj h).symm
                rw [hkyk]
                exact (hrl r k hk).erase d
              · rw [hother hyr] at h
                exact hrl y ky h

theorem mget_isSome_of_mem_mkeys {α : Type} {m : List (String × α)} {k : String}
    (h : k ∈ mkeys m) : ∃ v, mget m k = some v := by
  induction m with
  | nil => cases h
  | cons p rest ih =>
      obtain ⟨k₀, v₀⟩ := p
      by_cases hk : k₀ = k
      · exact ⟨v₀, by simp [mget, hk]⟩
      · simp only [mkeys, List.map_cons, List.mem_cons] at h
        rcases h with h | h
        · exact absurd h.symm hk
        · obtain ⟨v, hv⟩ := ih h
          exact ⟨v, by simp [mget, hk, hv]⟩

theorem not_mem_mkeys_of_mget_none {α : Type} {m : List (String × α)} {k : String}
    (h : mget m k = none) : k ∉ mkeys m := by
  intro hmem
  obtain ⟨v, hv⟩ := mget_isSome_of_mem_mkeys hmem
  rw [h] at hv
  cases hv

theorem mget_dropRef_none {s0 : SState} {i : String} {ds : List String}
    {m : List (String × List Nat)} {d : String} (h : mget m d = none) :
    mget (dropRef s0 i m ds) d = none := by
  apply mget_none_of_not_mem_mkeys
  rw [mkeys_dropRef]
  exact not_mem_mkeys_of_mget_none h

theorem mget_pushRef_none {ref : Nat} {ds : List String}
    {m : List (String × List Nat)} {d : String} (h : mget m d = none) :
    mget (pushRef ref m ds) d = none := by
  apply mget_none_of_not_mem_mkeys
  rw [mkeys_pushRef]
  exact not_mem_mkeys_of_mget_none h

theorem jsFindIdx_congr {α : Type} {p q : α → Bool} {l : List α}
    (h : ∀ x ∈ l, p x = q x) : jsFindIdx p l = jsFindIdx q l := by
  induction l with
  | nil => rfl
  | cons y ys ih =>
      have hy := h y (List.mem_cons_self y ys)
      simp only [jsFindIdx, hy, ih (fun x hx => h x (List.mem_cons_of_mem y hx))]

/-- `memberIdx` only looks at socket ids, so a heap update that preserves
every id preserves it. -/
theorem memberIdx_congr {s s' : SState} (refs : List Nat) (i : String)
    (h : ∀ y, idAt s' y = idAt s y) : memberIdx s' refs i = memberIdx s refs i := by
  unfold memberIdx
  exact jsFindIdx_congr (fun y _ => by rw [h y])

/-- The relay socket `close` handler preserves the invariant. -/
theorem sinv_close {s : SState} (hinv : SInv s) {r : Nat} {k : RSocket}
    (hk : getSock s r = some k) (hcl : k.closed = false) :
    SInv (sdisconnectApply s r) := by
  obtain ⟨hmem, hsrv, hlive, hrefs, hrl, hknd, hkr⟩ := hinv
  have hsrvk : mget s.servers k.id = some r := hlive r k hk hcl
  have hidr : idAt s r = some k.id := by simp [idAt, hk]
  have hself0 : getSock (setSock s r { k with closed := true }) r
      = some { k with closed := true } :=
    getSock_setSock_self ({ k with closed := true }) hk
  have hother0 : ∀ {y : Nat}, y ≠ r →
      getSock (setSock s r { k with closed := true }) y = getSock s y := by
    intro y hy
    exact getSock_setSock_ne r _ (Ne.symm hy)
  have hids : ∀ y, idAt (setSock s r { k with closed := true }) y = idAt s y := by
    intro y
    by_cases hy : y = r
    · rw [hy]
      unfold idAt
      rw [hself0, hk]
      rfl
    · unfold idAt
      rw [hother0 hy]
  have hmidx : ∀ (refs : List Nat) (i : String),
      memberIdx (setSock s r { k with closed := true }) refs i = memberIdx s refs i :=
    fun refs i => memberIdx_congr refs i hids
  -- the final state
  have hstate : sdisconnectApply s r =
      { setSock s r { k with closed := true } with
        relaysM := dropRef (setSock s r { k with closed := true }) k.id
          s.relaysM k.relays,
        servers := mdel s.servers k.id } := by
    have hhas : mhas s.servers k.id = true := by
      unfold mhas
      rw [hsrvk]
      rfl
    simp [sdisconnectApply, setSock, hk, hhas]
  rw [hstate]
  -- analysis of the post membership lists
  have hinv0 : SInv s := ⟨hmem, hsrv, hlive, hrefs, hrl, hknd, hkr⟩
  have hpost : ∀ d' refs',
      mget (dropRef (setSock s r { k with closed := true }) k.id
        s.relaysM k.relays) d' = some refs' →
      ∃ refs₀, mget s.relaysM d' = some refs₀ ∧ refs'.Nodup ∧
        ∀ y ∈ refs', y ≠ r ∧ y ∈ refs₀ := by
    intro d' refs' hm₂
    cases hg : mget s.relaysM d' with
    | none =>
        rw [mget_dropRef_none hg] at hm₂
        cases hm₂
    | some refs₀ =>
        refine ⟨refs₀, rfl, ?_⟩
        by_cases hdk : d' ∈ k.relays
        · rw [mget_dropRef_mem _ k.id k.relays d' s.relaysM refs₀ (hrl r k hk) hdk hg,
            hmidx refs₀ k.id] at hm₂
          cases hmi : memberIdx s refs₀ k.id with
          | none =>
              rw [hmi] at hm₂
              have hre : refs₀ = refs' := Option.some.inj hm₂
              subst hre
              exact ⟨hrefs d' refs₀ hg,
                fun y hy => ⟨fun hh => memberIdx_none_not_mem hidr hmi (hh ▸ hy), hy⟩⟩
          | some j =>
              rw [hmi] at hm₂
              obtain ⟨herase, -⟩ := memberIdx_some_eraseIdx hidr refs₀ j hmi
                (member_id_uniq hinv0 hg hsrvk)
              have hre : refs₀.eraseIdx j = refs' := Option.some.inj hm₂
              subst hre
              rw [herase]
              refine ⟨(hrefs d' refs₀ hg).erase r, fun y hy => ?_⟩
              have hme := (List.Nodup.mem_erase_iff (hrefs d' refs₀ hg)).mp hy
              exact ⟨hme.1, hme.2⟩
        · rw [mget_dropRef_not_mem _ k.id k.relays d' s.relaysM hdk, hg] at hm₂
          have hre : refs₀ = refs' := Option.some.inj hm₂
          subst hre
          refine ⟨hrefs d' refs₀ hg, fun y hy => ⟨?_, hy⟩⟩
          intro hh
          obtain ⟨ky, hky, -, hdy⟩ := hmem d' refs₀ hg y hy
          rw [hh, hk] at hky
          exact hdk ((Option.some.inj hky).symm ▸ hdy)
  refine ⟨?_, ?_, ?_, ?_, ?_, (mkeys_mdel_sublist s.servers k.id).nodup hknd, ?_⟩
  · intro d' refs' hm₂ y hy
    obtain ⟨refs₀, hg, -, hprop⟩ := hpost d' refs' hm₂
    obtain ⟨hyr, hy₀⟩ := hprop y hy
    obtain ⟨ky, hky, hsy, hdy⟩ := hmem d' refs₀ hg y hy₀
    have hkyne : ky.id ≠ k.id := by
      intro hh
      rw [hh, hsrvk] at hsy
      exact hyr (Option.some.inj hsy).symm
    refine ⟨ky, ?_, ?_, hdy⟩
    · show getSock (setSock s r { k with closed := true }) y = some ky
      rw [hother0 hyr]
      exact hky
    · show mget (mdel s.servers k.id) ky.id = some y
      rw [mget_mdel_ne s.servers hkyne]
      exact hsy
  · intro i y h
    have h' : mget (mdel s.servers k.id) i = some y := h
    by_cases hik : i = k.id
    · rw [hik, mget_mdel_self k.id hknd] at h'
      cases h'
    · rw [mget_mdel_ne s.servers hik] at h'
      obtain ⟨ky, hky, hki, hkc⟩ := hsrv i y h'
      have hyr : y ≠ r := by
        intro hh
        rw [hh, hk] at hky
        have : ky = k := (Option.some.inj hky).symm
        rw [this] at hki
        exact hik (hki ▸ rfl)
      refine ⟨ky, ?_, hki, hkc⟩
      show getSock (setSock s r { k with closed := true }) y = some ky
      rw [hother0 hyr]
      exact hky
  · intro y ky h hyc
    have h' : getSock (setSock s r { k with closed := true }) y = some ky := h
    by_cases hyr : y = r
    · rw [hyr, hself0] at h'
      have : ky = { k with closed := true } := (Option.some.inj h').symm
      rw [this] at hyc
      cases hyc
    · rw [hother0 hyr] at h'
      have hsy := hlive y ky h' hyc
      have hkyne : ky.id ≠ k.id := by
        intro hh
        rw [hh, hsrvk] at hsy
        exact hyr (Option.some.inj hsy).symm
      show mget (mdel s.servers k.id) ky.id = some y
      rw [mget_mdel_ne s.servers hkyne]
      exact hsy
  · intro d' refs' hm₂
    obtain ⟨refs₀, hg, hnd, -⟩ := hpost d' refs' hm₂
    exact hnd
  · intro y ky h
    have h' : getSock (setSock s r { k with closed := true }) y = some ky := h
    by_cases hyr : y = r
    · rw [hyr, hself0] at h'
      have : ky = { k with closed := true } := (Option.some.inj h').symm
      rw [this]
      exact hrl r k hk
    · rw [hother0 hyr] at h'
      exact hrl y ky h'
  · show (mkeys (dropRef (setSock s r { k with closed := true }) k.id
        s.relaysM k.relays)).Nodup
    rw [mkeys_dropRef]
    exact hkr

/-- Core of the `session` success path, under the amended conditions: the
rewritten socket keeps its registered id, carries the digest list `rel'`,
and is pushed into every subscribed membership list of `rel'`; the
invariant is preserved. -/
theorem sinv_session_core {s : SState} (hinv : SInv s) {r : Nat} {k : RSocket}
    (hk : getSock s r = some k) (hcl : k.closed = false)
    (hgood2 : ∀ d refs, mget s.relaysM d = some refs → r ∉ refs)
    {rel' : List String} (hnd : rel'.Nodup)
    {k' : RSocket} (hk'id : k'.id = k.id) (hk'rel : k'.relays = rel')
    (hk'cl : k'.closed = false) :
    SInv { setSock s r k' with relaysM := pushRef r s.relaysM rel' } := by
  obtain ⟨hmem, hsrv, hlive, hrefs, hrl, hknd, hkr⟩ := hinv
  have hsrvk : mget s.servers k.id = some r := hlive r k hk hcl
  have hself := getSock_setSock_self (s := s) k' hk
  have hother : ∀ {y : Nat}, y ≠ r → getSock (setSock s r k') y = getSock s y := by
    intro y hy
    exact getSock_setSock_ne r k' (Ne.symm hy)
  have hpost : ∀ d' refs', mget (pushRef r s.relaysM rel') d' = some refs' →
      ∃ refs₀, mget s.relaysM d' = some refs₀ ∧
        ((d' ∈ rel' ∧ refs' = refs₀ ++ [r]) ∨ (d' ∉ rel' ∧ refs' = refs₀)) := by
    intro d' refs' hm₂
    cases hg : mget s.relaysM d' with
    | none =>
        rw [mget_pushRef_none hg] at hm₂
        cases hm₂
    | some refs₀ =>
        refine ⟨refs₀, rfl, ?_⟩
        by_cases hdr : d' ∈ rel'
        · rw [mget_pushRef_mem r rel' d' s.relaysM refs₀ hnd hdr hg] at hm₂
          exact Or.inl ⟨hdr, (Option.some.inj hm₂).symm⟩
        · rw [mget_pushRef_not_mem r rel' d' s.relaysM hdr, hg] at hm₂
          exact Or.inr ⟨hdr, (Option.some.inj hm₂).symm⟩
  refine ⟨?_, ?_, ?_, ?_, ?_, hknd, ?_⟩
  · intro d' refs' hm₂ y hy
    obtain ⟨refs₀, hg, hcase⟩ := hpost d' refs' hm₂
    have hrn : r ∉ refs₀ := hgood2 d' refs₀ hg
    rcases hcase with ⟨hdr, hre⟩ | ⟨hdr, hre⟩
    · subst hre
      rcases List.mem_append.mp hy with hy' | hy'
      · obtain ⟨ky, hky, hsy, hdy⟩ := hmem d' refs₀ hg y hy'
        have hyr : y ≠ r := fun hh => hrn (hh ▸ hy')
        refine ⟨ky, ?_, hsy, hdy⟩
        show getSock (setSock s r k') y = some ky
        rw [hother hyr]
        exact hky
      · have hyr : y = r := by simpa using hy'
        rw [hyr]
        refine ⟨k', hself, ?_, ?_⟩
        · rw [hk'id]
          exact hsrvk
        · rw [hk'rel]
          exact hdr
    · have hre' : refs₀ = refs' := hre.symm
      subst hre'
      obtain ⟨ky, hky, hsy, hdy⟩ := hmem d' refs₀ hg y hy
      have hyr : y ≠ r := fun hh => hrn (hh ▸ hy)
      refine ⟨ky, ?_, hsy, hdy⟩
      show getSock (setSock s r k') y = some ky
      rw [hother hyr]
      exact hky
  · intro i y h
    obtain ⟨ky, hky, hki, hkc⟩ := hsrv i y h
    by_cases hyr : y = r
    · rw [hyr] at hky ⊢
      have hkyk : ky = k := by
        rw [hk] at hky
        exact (Option.some.inj hky).symm
      rw [hkyk] at hki
      refine ⟨k', hself, ?_, hk'cl⟩
      rw [hk'id]
      exact hki
    · refine ⟨ky, ?_, hki, hkc⟩
      show getSock (setSock s r k') y = some ky
      rw [hother hyr]
      exact hky
  · intro y ky h hyc
    have h' : getSock (setSock s r k') y = some ky := h
    by_cases hyr : y = r
    · rw [hyr] at h' ⊢
      rw [hself] at h'
      have hkyk : ky = k' := (Option.some.inj h').symm
      rw [hkyk, hk'id]
      exact hsrvk
    · rw [hother hyr] at h'
      exact hlive y ky h' hyc
  · intro d' refs' hm₂
    obtain ⟨refs₀, hg, hcase⟩ := hpost d' refs' hm₂
    have hrn : r ∉ refs₀ := hgood2 d' refs₀ hg
    rcases hcase with ⟨-, hre⟩ | ⟨-, hre⟩
    · subst hre
      exact nodup_append_singleton (hrefs d' refs₀ hg) hrn
    · have hre' : refs₀ = refs' := hre.symm
      subst hre'
      exact hrefs d' refs₀ hg
  · intro y ky h
    have h' : getSock (setSock s r k') y = some ky := h
    by_cases hyr : y = r
    · rw [hyr] at h'
      rw [hself] at h'
      have hkyk : ky = k' := (Option.some.inj h').symm
      rw [hkyk, hk'rel]
      exact hnd
    · rw [hother hyr] at h'
      exact hrl y ky h'
  · show (mkeys (pushRef r s.relaysM rel')).Nodup
    rw [mkeys_pushRef]
    exact hkr

/-- The `session` handler preserves the invariant for a live handler
socket, under the amended conditions: the frame's `id` equals the id under
which the socket is registered, and the socket is not yet a member of any
membership list. -/
theorem sinv_session {s : SState} (hinv : SInv s) (sha1 : String → String)
    {r : Nat} {k : RSocket} (hk : getSock s r = some k) (hcl : k.closed = false)
    (f : SFrame) (hgood1 : f.id = k.id)
    (hgood2 : ∀ d refs, mget s.relaysM d = some refs → r ∉ refs) :
    SInv (sessionApply sha1 s r f).1 := by
  by_cases hval : mhas s.relaysM f.id = true ∨ k.relay ≠ some f.relay ∨
      f.id ≠ sha1 f.address
  · have hstep : sessionApply sha1 s r f = (s, true) := by
      simp only [sessionApply, hk]
      rw [if_pos]
      rcases hval with h | h | h
      · exact Or.inl (by simpa using h)
      · exact Or.inr (Or.inl h)
      · exact Or.inr (Or.inr h)
    rw [hstep]
    exact hinv
  · by_cases hfr : f.relay ∈ k.relays
    · have hstate : (sessionApply sha1 s r f).1 =
          { setSock s r
              { id := f.id, relay := none, relays := k.relays, session := true,
                active := k.active, closed := k.closed,
                address := some f.address, web := some f.web, host := some f.host,
                port := some f.port, domain := some f.domain } with
            relaysM := pushRef r s.relaysM k.relays } := by
        simp [sessionApply, setSock, hk, hval, hfr]
      rw [hstate]
      exact sinv_session_core ⟨hinv.1, hinv.2.1, hinv.2.2.1, hinv.2.2.2.1,
        hinv.2.2.2.2.1, hinv.2.2.2.2.2.1, hinv.2.2.2.2.2.2⟩ hk hcl hgood2
        (hinv.2.2.2.2.1 r k hk) (by simpa using hgood1) rfl
        (by simpa using hcl)
    · have hstate : (sessionApply sha1 s r f).1 =
          { setSock s r
              { id := f.id, relay := none, relays := k.relays ++ [f.relay],
                session := true, active := k.active, closed := k.closed,
                address := some f.address, web := some f.web, host := some f.host,
                port := some f.port, domain := some f.domain } with
            relaysM := pushRef r s.relaysM (k.relays ++ [f.relay]) } := by
        simp [sessionApply, setSock, hk, hval, hfr]
      rw [hstate]
      exact sinv_session_core ⟨hinv.1, hinv.2.1, hinv.2.2.1, hinv.2.2.2.1,
        hinv.2.2.2.2.1, hinv.2.2.2.2.2.1, hinv.2.2.2.2.2.2⟩ hk hcl hgood2
        (nodup_append_singleton (hinv.2.2.2.2.1 r k hk) hfr)
        (by simpa using hgood1) rfl (by simpa using hcl)

/-- Amended side conditions: a `session` step's frame must carry the id
under which the socket is registered, and must arrive before the socket
has been entered into any membership list (the handshake-first order).
All other actions are unconditional. -/
def SGood (s : SState) : SAct → Prop
  | .session r f => ∀ k, getSock s r = some k →
      f.id = k.id ∧ ∀ d refs, mget s.relaysM d = some refs → r ∉ refs
  | _ => True

/-- States reachable when every `session` step satisfies `SGood`. -/
inductive SReachGood (sha1 : String → String) (init : SState) : SState → Prop where
  | refl : SReachGood sha1 init init
  | step : ∀ {s} (a : SAct), SReachGood sha1 init s → SGuard sha1 s a → SGood s a →
      SReachGood sha1 init (sstepFn sha1 s a)

/-- Every guarded, `SGood` step preserves the invariant. -/
theorem sinv_step {sha1 : String → String} {s : SState} (hinv : SInv s) (a : SAct)
    (hg : SGuard sha1 s a) (hgood : SGood s a) : SInv (sstepFn sha1 s a) := by
  cases a with
  | accept d i => exact sinv_accept hinv 0 d i
  | dial a d => exact sinv_dial hinv sha1 a d hg.2.2.2
  | session r f =>
      obtain ⟨k, hk, hcl⟩ := hg
      obtain ⟨h1, h2⟩ := hgood k hk
      exact sinv_session hinv sha1 hk hcl f h1 h2
  | add r d =>
      obtain ⟨k, hk, hcl⟩ := hg
      exact sinv_add hinv hk hcl d
  | sub r d =>
      obtain ⟨k, hk, hcl⟩ := hg
      exact sinv_sub hinv hk hcl d
  | ping r => exact hinv
  | pong r => exact sinv_pong hinv r
  | toggle r b => exact sinv_toggle hinv r b
  | close r =>
      obtain ⟨k, hk, hcl⟩ := hg
      exact sinv_close hinv hk hcl

/-- **C5** (amended): in every reachable state of the mesh machine in which
each incoming `session` frame carries the id under which its connection is
registered in `servers` and arrives before that connection has joined any
membership list, every member `r` of every membership list `relays[d]` is
the socket stored at `servers[r.id]` and has `d ∈ r.relays` — including
after the `session` handler has overwritten the peer-reported identity
fields.  Without those two side conditions the invariant is broken by the
`session` handler (`c5_membership_counterexample`). -/
theorem c5_membership_invariant (sha1 : String → String)
    (selfId selfAddress selfWeb selfHost : String) (selfPort : ℤ)
    (selfDomain : String) (digests : List String) (s : SState)
    (h : SReachGood sha1
      (sInit selfId selfAddress selfWeb selfHost selfPort selfDomain digests) s) :
    MembershipInv s := by
  have hinv : SInv s := by
    induction h with
    | refl =>
        exact sInv_init selfId selfAddress selfWeb selfHost selfPort selfDomain digests
    | step a hr hg hgood ih => exact sinv_step ih a hg hgood
  exact hinv.1

/-- Boot state used for the C5 witness and counterexample. -/
def c5Init : SState := sInit "me" "host:1" "host:1" "host" 1 "" ["d1"]

/-- The socket object created by the dial step of the C5 traces. -/
def c5DialSock : RSocket :=
  { id := "h:1.2.3.4:5", relay := some "d1", relays := [], session := false,
    active := true, closed := false, address := none, web := none, host := none,
    port := none, domain := none }

/-- The socket object after the mismatched `session` frame of the C5
counterexample has been processed. -/
def c5BadSock : RSocket :=
  { id := "h:other", relay := none, relays := ["d1"], session := true,
    active := true, closed := false, address := some "other", web := some "w",
    host := some "h", port := some 5, domain := some "" }

/-- A well-formed `session` frame for the dialed socket: its id is the one
the dialer computed (`probeSha1 "1.2.3.4:5"`). -/
def c5GoodFrame : SFrame :=
  { id := "h:1.2.3.4:5", relay := "d1", address := "1.2.3.4:5", web := "w",
    host := "h", port := 5, domain := "" }

/-- State after dialing `1.2.3.4:5` for digest `d1` and processing a
well-formed `session` frame. -/
def c5GoodState : SState :=
  sstepFn probeSha1 (sstepFn probeSha1 c5Init (SAct.dial "1.2.3.4:5" "d1"))
    (SAct.session 0 c5GoodFrame)

/-- **C5** (witness): the amended invariant evaluated after a concrete
dial-then-session trace satisfying the side conditions. -/
theorem c5_membership_invariant_witness : MembershipInv c5GoodState := by
  apply c5_membership_invariant probeSha1 "me" "host:1" "host:1" "host" 1 "" ["d1"]
  have h1 : SReachGood probeSha1 c5Init
      (sstepFn probeSha1 c5Init (SAct.dial "1.2.3.4:5" "d1")) := by
    refine SReachGood.step _ SReachGood.refl ?_ trivial
    exact ⟨by decide, by decide, by decide, by decide⟩
  refine SReachGood.step _ h1 ?_ ?_
  · exact ⟨_, rfl, rfl⟩
  · intro k hk
    have hkk : k = c5DialSock := by
      have hg : getSock (sstepFn probeSha1 c5Init (SAct.dial "1.2.3.4:5" "d1")) 0 =
          some c5DialSock := by decide
      rw [hg] at hk
      exact (Option.some.inj hk).symm
    subst hkk
    refine ⟨rfl, ?_⟩
    intro d refs hm
    have hrm : (sstepFn probeSha1 c5Init (SAct.dial "1.2.3.4:5" "d1")).relaysM =
        [("d1", [])] := by decide
    rw [hrm] at hm
    unfold mget at hm
    by_cases hd : "d1" = d
    · rw [if_pos hd] at hm
      have : refs = [] := (Option.some.inj hm).symm
      rw [this]
      exact List.not_mem_nil 0
    · rw [if_neg hd] at hm
      cases hm

/-- A `session` frame that passes all three validation checks but carries
an id different from the one under which the dialed socket is registered
(`probeSha1 "1.2.3.4:5"`): its id is the SHA-1 of a different reported
address. -/
def c5BadFrame : SFrame :=
  { id := "h:other", relay := "d1", address := "other", web := "w",
    host := "h", port := 5, domain := "" }

/-- State reached by the unrestricted machine after dialing and processing
the mismatched (but valid per the handler's checks) `session` frame. -/
def c5BadState : SState :=
  sstepFn probeSha1 (sstepFn probeSha1 c5Init (SAct.dial "1.2.3.4:5" "d1"))
    (SAct.session 0 c5BadFrame)

/-- **C5** (counterexample): the claim as stated is false — a reachable
state (dial, then a `session` frame whose id is the SHA-1 of its reported
address but differs from the id under which the socket was registered)
has the socket in `relays["d1"]` while `servers[socket.id]` is empty,
because the handler overwrote `socket.id` with the frame's id. -/
theorem c5_membership_counterexample :
    SReach probeSha1 c5Init c5BadState ∧ ¬ MembershipInv c5BadState := by
  constructor
  · refine SReach.step _ (SReach.step _ SReach.refl ?_) ?_
    · exact ⟨by decide, by decide, by decide, by decide⟩
    · exact ⟨_, rfl, rfl⟩
  · intro h
    obtain ⟨k, hk, hsrv, -⟩ := h "d1" [0] (by decide) 0 (by simp)
    have hg : getSock c5BadState 0 = some c5BadSock := by decide
    rw [hg] at hk
    have hkk : k = c5BadSock := (Option.some.inj hk).symm
    rw [hkk] at hsrv
    have hnone : mget c5BadState.servers c5BadSock.id = none := by decide
    rw [hnone] at hsrv
    cases hsrv

/-! ### C3: the `/relay` accept path -/

/-- **C3**: on every `/relay` accept whose digest is subscribed, whose id
does not collide, and which is under the `serverConnections` cap, the code
registers the socket but then evaluates the unbound variable `hash` while
building the `session` frame (see `relayBranchHashVar`) and throws a
`ReferenceError`: no `session` frame is sent. -/
theorem c3_relay_accept_throws (s : SState) (limit : Nat) (digest id : String)
    (hdig : mhas s.relaysM digest = true) (hid : mhas s.servers id = false)
    (hcap : ∀ refs, mget s.relaysM digest = some refs →
      limit = 0 ∨ refs.length < limit) :
    (relayAccept s limit digest id).sentSession = none ∧
      (relayAccept s limit digest id).threw = true ∧
      (relayAccept s limit digest id).rejected = false := by
  cases hm : mget s.relaysM digest with
  | none =>
      exfalso
      unfold mhas at hdig
      rw [hm] at hdig
      cases hdig
  | some refs =>
      rcases hcap refs hm with h0 | hlt
      · have hc : ¬(limit ≠ 0 ∧ limit ≤ refs.length) := by simp [h0]
        simp [relayAccept, hdig, hid, hm, hc, relayBranchHashVar]
      · have hc : ¬(limit ≠ 0 ∧ limit ≤ refs.length) := by
          rintro ⟨-, hle⟩
          omega
        simp [relayAccept, hdig, hid, hm, hc, relayBranchHashVar]

/-- **C3** (witness): the accept-throw theorem evaluated on a concrete
valid `/relay` request. -/
theorem c3_relay_accept_throws_witness :
    (relayAccept probeState 0 "d1" "p9").sentSession = none ∧
      (relayAccept probeState 0 "d1" "p9").threw = true ∧
      (relayAccept probeState 0 "d1" "p9").rejected = false :=
  c3_relay_accept_throws probeState 0 "d1" "p9" (by decide) (by decide)
    (fun _ _ => Or.inl rfl)

/-! ## The client-facing state machine (`/signal`),
`ws.onConnection` + `onClientConnection` (`src/index.js:130-153,313-398`) -/

/-- A client socket (`ClientConn`).  `closed` records that `close()` was
called on it or that its underlying socket closed.  `stamp` starts
undefined (`none`). -/
structure CSocket where
  id : String
  hash : String
  want : ℤ
  active : Bool
  ids : List String
  web : List String
  stamp : Option ℤ
  closed : Bool
deriving DecidableEq

/-- Frames the relay sends to clients (payload fields the claims need). -/
inductive CFrame where
  | error (msg : String)
  | init (req res : String)
  | interrupt (id : String)
  | forward (action : String) (req res : String)
deriving DecidableEq

/-- Client-side state of one `Server` instance: the subscribed info-hash
set, `this.clients` and `this.offers`. -/
structure CState where
  hashes : List String
  clients : List (String × CSocket)
  offers : List (String × List String)
deriving DecidableEq

/-- Boot state: `this.offers = new Map(hashes.map(h => [h, new Set()]))`. -/
def cInit (hashes : List String) : CState :=
  { hashes := hashes, clients := [],
    offers := hashes.foldl (fun m h => mset m h []) [] }

/-- The scan of `matchOffers` (`src/index.js:563-570`): first waiting id
that is not the socket's own id and not already in its `ids` or `web`. -/
def findCandidate (sock : CSocket) : List String → Option String
  | [] => none
  | t :: ts =>
      if sock.id = t ∨ t ∈ sock.ids ∨ t ∈ sock.web then findCandidate sock ts
      else some t

/-- `matchOffers` (`src/index.js:560-573`): scan the waiting set for the
socket's hash in insertion order; delete the first eligible id and return
`this.clients.get(test)` — modelled as the id when the `get` is defined,
`none` when the function returns `null` or `undefined` (the deletion
happens in either case). -/
def matchOffers (s : CState) (sock : CSocket) : CState × Option String :=
  match mget s.offers sock.hash with
  | none => (s, none)
  | some waiting =>
    match findCandidate sock waiting with
    | none => (s, none)
    | some t =>
        ({ s with offers := mset s.offers sock.hash (sdel waiting t) },
         if mhas s.clients t then some t else none)

/-- `sessionOffers` (`src/index.js:574-586`): on a match add each id to the
other's pending set, send `{req, res, action:'init'}` to the requester and
stamp it; with no match, enqueue the requester in its hash's waiting set. -/
def sessionOffers (s : CState) (reqId : String) (resOpt : Option String)
    (now : ℤ) : CState × List (String × CFrame) :=
  match resOpt with
  | some resId =>
      match mget s.clients resId with
      | none => (s, [])
      | some res =>
        let res1 : CSocket := { res with ids := sadd res.ids reqId }
        let s1 := { s with clients := mset s.clients resId res1 }
        match mget s1.clients reqId with
        | none => (s1, [])
        | some req1 =>
            let req2 : CSocket :=
              { req1 with ids := sadd req1.ids resId, stamp := some now }
            ({ s1 with clients := mset s1.clients reqId req2 },
             [(reqId, CFrame.init reqId resId)])
  | none =>
      match mget s.clients reqId with
      | none => (s, [])
      | some req =>
        match mget s.offers req.hash with
        | none => (s, [])
        | some waiting =>
            ({ s with offers := mset s.offers req.hash (sadd waiting reqId) }, [])

/-- The `/signal` accept path (`src/index.js:130-153`) followed by
`onClientConnection` (`src/index.js:313-398`): reject (error frame, close)
on a missing subscription or id collision; otherwise insert the new
ClientConn and run `sessionOffers(socket, matchOffers(socket))`.  The
handler properties are assigned on the socket but the `Bool` result only
records acceptance; the `limit.clientConnections` overflow trigger is not
modelled (default `0` = unlimited). -/
def signalAccept (s : CState) (hash id : String) (want : JSNum) (now : ℤ) :
    CState × List (String × CFrame) × Bool :=
  if ¬ (hash ∈ s.hashes) ∨ mhas s.clients id then
    (s, [(id, CFrame.error "must have hash, id, and want url params")], false)
  else
    let sock : CSocket :=
      { id := id, hash := hash, want := computeWant want, active := true,
        ids := [], web := [], stamp := none, closed := false }
    let s1 := { s with clients := mset s.clients id sock }
    let p := matchOffers s1 sock
    let q := sessionOffers p.1 id p.2 now
    (q.1, q.2, true)

/-- One side of the `proc` handler (`src/index.js:335-352`): for the
client indexed at `k`, if peer `p` is pending and not completed, move it
from `ids` to `web`, then either rematch (`sessionOffers ∘ matchOffers`)
or close the socket when `web.size ≥ want`. -/
def procSide (u : CState) (k p : String) (now : ℤ) :
    CState × List (String × CFrame) :=
  match mget u.clients k with
  | none => (u, [])
  | some c =>
    if p ∈ c.ids ∧ p ∉ c.web then
      let c1 : CSocket := { c with web := sadd c.web p, ids := sdel c.ids p }
      let sA := { u with clients := mset u.clients k c1 }
      if (c1.web.length : ℤ) < c1.want then
        let pr := matchOffers sA c1
        sessionOffers pr.1 k pr.2 now
      else
        ({ sA with clients := mset sA.clients k { c1 with closed := true } }, [])
    else (u, [])

/-- The `proc` handler (`src/index.js:330-353`): clear the sender's stamp,
run the move for the `res`-side client with peer `req`, then for the
sender (re-read from the map) with peer `res`. -/
def procApply (s : CState) (sender req res : String) (now : ℤ) :
    CState × List (String × CFrame) :=
  match mget s.clients sender with
  | none => (s, [])
  | some sock0 =>
    let s0 := { s with clients := mset s.clients sender { sock0 with stamp := none } }
    let t1 := procSide s0 res req now
    let t2 := procSide t1.1 sender res now
    (t2.1, t1.2 ++ t2.2)

/-- The `request` / `response` handlers (`src/index.js:354-369`): clear the
sender's stamp; if the target (`res` for `request`, `req` for `response`)
is in the sender's pending set and is an indexed client, forward the frame
verbatim and stamp the target. -/
def forwardApply (act : String) (s : CState) (sender target : String) (now : ℤ) :
    CState × List (String × CFrame) :=
  match mget s.clients sender with
  | none => (s, [])
  | some sock0 =>
    let s0 := { s with clients := mset s.clients sender { sock0 with stamp := none } }
    if target ∈ sock0.ids ∧ mhas s0.clients target then
      match mget s0.clients target with
      | none => (s0, [])
      | some test =>
          ({ s0 with clients := mset s0.clients target { test with stamp := some now } },
           [(target, CFrame.forward act sender target)])
    else (s0, [])

/-- The loop body of the client `close` handler (`src/index.js:381-393`),
iterating the closing socket's `ids`: notify each indexed peer with
`interrupt` and delete the closing id from its `ids`; then, guarded by
`offers.has(matched.hash)`, the code reads `offers.get(matched.id)` — the
waiting set is looked up under the PEER'S ID rather than its hash, so
unless that id happens to equal a subscribed info-hash the lookup yields
`undefined` and `matching.has(...)` throws a `TypeError`, aborting the
loop with the mutations made so far kept.  The `Bool` records the throw. -/
def clientDisconnectLoop (senderId : String) :
    CState → List String → CState × List (String × CFrame) × Bool
  | s, [] => (s, [], false)
  | s, pid :: rest =>
    match mget s.clients pid with
    | none => clientDisconnectLoop senderId s rest
    | some matched =>
      let matched1 : CSocket := { matched with ids := sdel matched.ids senderId }
      let s1 := { s with clients := mset s.clients pid matched1 }
      let out := (pid, CFrame.interrupt senderId)
      if mhas s1.offers matched.hash then
        match mget s1.offers matched.id with
        | none => (s1, [out], true)
        | some matching =>
          let s2 :=
            if matched.id ∈ matching then s1
            else { s1 with offers := mset s1.offers matched.id (matching ++ [matched.id]) }
          let rec1 := clientDisconnectLoop senderId s2 rest
          (rec1.1, out :: rec1.2.1, rec1.2.2)
      else
        let rec1 := clientDisconnectLoop senderId s1 rest
        (rec1.1, out :: rec1.2.1, rec1.2.2)

/-- The client `close` handler (`src/index.js:380-395`): the socket is
closed (no further events), its pending peers are processed by
`clientDisconnectLoop` — and the handler never deletes the socket from
`this.clients`. -/
def clientDisconnect (s : CState) (sender : String) :
    CState × List (String × CFrame) × Bool :=
  match mget s.clients sender with
  | none => (s, [], false)
  | some sock =>
    let s0 := { s with clients := mset s.clients sender { sock with closed := true } }
    clientDisconnectLoop sender s0 sock.ids

/-- Actions of the client machine. -/
inductive CAct where
  | accept (hash id : String) (want : JSNum) (now : ℤ)
  | proc (sender req res : String) (now : ℤ)
  | request (sender res : String) (now : ℤ)
  | response (sender req : String) (now : ℤ)
  | disconnect (sender : String)
deriving DecidableEq

/-- Transition function of the client machine (messages from unknown or
closed sockets fall through to the handlers' own guards, as in the code). -/
def cstepFn (s : CState) : CAct → CState
  | .accept h i w now => (signalAccept s h i w now).1
  | .proc sender req res now => (procApply s sender req res now).1
  | .request sender res now => (forwardApply "request" s sender res now).1
  | .response sender req now => (forwardApply "response" s sender req now).1
  | .disconnect sender => (clientDisconnect s sender).1

/-- States reachable by the client machine. -/
inductive CReach (init : CState) : CState → Prop where
  | refl : CReach init init
  | step : ∀ {s} (a : CAct), CReach init s → CReach init (cstepFn s a)

/-! ### C8: the health ticker -/

/-- The keys a JS `for (const k in it)` loop enumerates when `it` is the
iterator object returned by `Map.prototype.values()`: `for…in` walks the
enumerable own properties of its operand (not the iteration values — that
would be `for…of`), and an iterator object has no enumerable own
properties, so the loop enumerates nothing. -/
def jsForInKeys {α : Type} (_it : α) : List String := []

/-- The health-ticker callback (`src/index.js:609-635`), firing every
300 000 ms.  Both loops are written `for (const test in
this.servers.values())` and `for (const test in this.clients.values())`,
so by `jsForInKeys` their bodies (terminate inactive relay sockets, mark
and ping active ones, close clients whose `stamp` is older than 60 000 ms)
never execute: the tick leaves both state machines unchanged and sends no
frame.  The third component lists the ids pinged, terminated or closed. -/
def healthTick (sv : SState) (cl : CState) (_now : ℤ) :
    SState × CState × List String :=
  ((jsForInKeys sv.servers).foldl (fun acc _k => acc) sv,
   (jsForInKeys cl.clients).foldl (fun acc _k => acc) cl, [])

/-- **C8**: the health ticker never terminates an inactive relay socket,
never pings an active one and never closes a stalled client — on every
state and at every time the tick is the identity and touches no socket,
because `for…in` over a `Map.values()` iterator enumerates no keys. -/
theorem c8_health_tick_noop (sv : SState) (cl : CState) (now : ℤ) :
    healthTick sv cl now = (sv, cl, []) := rfl

/-! ### Concrete client traces for C1, C2 and C6 -/

/-- A relay subscribed to the single info-hash `"H"`, no clients yet. -/
def cexInit : CState := cInit ["H"]

/-- The state after `/signal?hash=H&id=z&want=0` is accepted. -/
def c1Ctr : CState := cstepFn cexInit (CAct.accept "H" "z" (JSNum.num 0) 0)

/-- **C1** (counterexample): `want=0` passes the clamp unchanged (see C4),
and a freshly accepted client with `want = 0` is live with
`|web| = 0 ≥ 0 = want` — the relay does not close a connection whose
completed-peerings set has reached `want`, refuting the claim's
close-when-full clause (its disjointness and `|web| ≤ want` clauses are
amended and proved in `c1_client_invariants`). -/
theorem c1_want_zero_live_counterexample :
    CReach cexInit c1Ctr ∧
      ∃ c, mget c1Ctr.clients "z" = some c ∧ c.closed = false ∧
        c.want ≤ (c.web.length : ℤ) := by
  refine ⟨CReach.step _ CReach.refl, ?_⟩
  refine ⟨_, rfl, rfl, ?_⟩
  decide

/-- The state after client `"a"` is accepted and then its socket closes. -/
def c2Closed : CState :=
  cstepFn (cstepFn cexInit (CAct.accept "H" "a" (JSNum.num 4) 0))
    (CAct.disconnect "a")

/-- **C2**: the client `close` handler notifies pending partners but NEVER
removes the ClientConn from `this.clients` (there is no
`this.clients.delete(socket.id)` in `src/index.js:380-395`): after the
close the stale entry is still indexed — still marked closed — and a new
`/signal` handshake reusing the id is rejected as a collision. -/
theorem c2_close_keeps_client_indexed :
    CReach cexInit c2Closed ∧
      mhas c2Closed.clients "a" = true ∧
      (∃ c, mget c2Closed.clients "a" = some c ∧ c.closed = true) ∧
      (signalAccept c2Closed "H" "a" (JSNum.num 4) 1).2.2 = false := by
  refine ⟨CReach.step _ (CReach.step _ CReach.refl), ?_, ⟨_, rfl, rfl⟩, ?_⟩ <;> decide

/-! ### C1: the client-side inductive invariant -/

theorem mem_sadd {l : List String} {x y : String} :
    y ∈ sadd l x ↔ y ∈ l ∨ y = x := by
  unfold sadd
  split
  · constructor
    · exact fun h => Or.inl h
    · rintro (h | rfl)
      · exact h
      · assumption
  · simp [List.mem_append]

theorem sadd_nodup {l : List String} {x : String} (h : l.Nodup) :
    (sadd l x).Nodup := by
  by_cases hx : x ∈ l
  · simpa [sadd, hx] using h
  · simpa [sadd, hx] using nodup_append_singleton h hx

theorem sadd_length_not_mem {l : List String} {x : String} (hx : x ∉ l) :
    (sadd l x).length = l.length + 1 := by
  simp [sadd, hx]

theorem mem_sdel {l : List String} {x y : String} (h : y ∈ sdel l x) :
    y ∈ l := List.mem_of_mem_erase h

theorem mem_sdel_of_ne {l : List String} {x y : String} (hne : y ≠ x)
    (h : y ∈ l) : y ∈ sdel l x := (List.mem_erase_of_ne hne).mpr h

theorem sdel_nodup {l : List String} {x : String} (h : l.Nodup) :
    (sdel l x).Nodup := h.erase x

/-- One-key lookup case split for `mset`. -/
theorem mget_mset_cases {α : Type} (m : List (String × α)) (k i : String)
    (v : α) :
    (i = k ∧ mget (mset m k v) i = some v) ∨
      (i ≠ k ∧ mget (mset m k v) i = mget m i) := by
  by_cases h : i = k
  · subst h
    exact Or.inl ⟨rfl, mget_mset_self m i v⟩
  · exact Or.inr ⟨h, mget_mset_ne m v h⟩

/-- Inductive invariant of the client machine, over the `clients` map:
keys index sockets by their immutable `id`; a socket never holds itself in
its pending set; `ids` and `web` are duplicate-free and `want ≥ 0`; every
live socket has `ids` disjoint from `web` and fewer than `max(want,1)`
completed peerings; and every pending or completed peer of a live socket
is an indexed socket that holds the peering back (in `ids` or `web`). -/
def CInvC (cl : List (String × CSocket)) : Prop :=
  (∀ i c, mget cl i = some c → c.id = i) ∧
  (∀ i c, mget cl i = some c →
    c.id ∉ c.ids ∧ c.ids.Nodup ∧ c.web.Nodup ∧ 0 ≤ c.want) ∧
  (∀ i c, mget cl i = some c → c.closed = false →
    (∀ x ∈ c.ids, x ∉ c.web) ∧ (c.web.length : ℤ) < max c.want 1) ∧
  (∀ i c, mget cl i = some c → c.closed = false →
    ∀ x ∈ c.ids, ∃ cx, mget cl x = some cx ∧ (i ∈ cx.ids ∨ i ∈ cx.web)) ∧
  (∀ i c, mget cl i = some c → c.closed = false →
    ∀ x ∈ c.web, ∃ cx, mget cl x = some cx ∧ (i ∈ cx.ids ∨ i ∈ cx.web))

theorem cinvc_nil : CInvC [] := by
  refine ⟨?_, ?_, ?_, ?_, ?_⟩ <;> intro i c h <;> cases h

/-- Master preservation lemma for overwriting one existing key: the new
socket keeps the id, satisfies its own clauses, has out-edges to `i`'s
old back-pointers, and keeps every live third party's membership in the
`ids ∪ web` union. -/
theorem cinvc_update {cl : List (String × CSocket)} (hinv : CInvC cl)
    {i : String} {c c' : CSocket} (hc : mget cl i = some c)
    (hid : c'.id = c.id)
    (hown2 : c'.id ∉ c'.ids ∧ c'.ids.Nodup ∧ c'.web.Nodup ∧ 0 ≤ c'.want)
    (hmain2 : c'.closed = false →
      (∀ x ∈ c'.ids, x ∉ c'.web) ∧ ((c'.web.length : ℤ) < max c'.want 1))
    (hZnew : c'.closed = false → ∀ x, x ∈ c'.ids → x ≠ i →
      ∃ cx, mget cl x = some cx ∧ (i ∈ cx.ids ∨ i ∈ cx.web))
    (hXnew : c'.closed = false → ∀ x, x ∈ c'.web → x ≠ i →
      ∃ cx, mget cl x = some cx ∧ (i ∈ cx.ids ∨ i ∈ cx.web))
    (hgrow : ∀ y cy, mget cl y = some cy → cy.closed = false → y ≠ i →
      (y ∈ c.ids ∨ y ∈ c.web) → (y ∈ c'.ids ∨ y ∈ c'.web)) :
    CInvC (mset cl i c') := by
  obtain ⟨hkey, hown, hmain, hZ, hX⟩ := hinv
  have hki : c.id = i := hkey i c hc
  have hlook : ∀ j d, mget (mset cl i c') j = some d →
      (j = i ∧ d = c') ∨ (j ≠ i ∧ mget cl j = some d) := by
    intro j d hj
    rcases mget_mset_cases cl i j c' with ⟨he, hg⟩ | ⟨hne, hg⟩
    · rw [hg] at hj
      exact Or.inl ⟨he, (Option.some.inj hj).symm⟩
    · rw [hg] at hj
      exact Or.inr ⟨hne, hj⟩
  refine ⟨?_, ?_, ?_, ?_, ?_⟩
  · intro j d hj
    rcases hlook j d hj with ⟨he, hd⟩ | ⟨hne, hd⟩
    · subst he
      subst hd
      rw [hid, hki]
    · exact hkey j d hd
  · intro j d hj
    rcases hlook j d hj with ⟨he, hd⟩ | ⟨hne, hd⟩
    · subst hd
      exact hown2
    · exact hown j d hd
  · intro j d hj hlive
    rcases hlook j d hj with ⟨he, hd⟩ | ⟨hne, hd⟩
    · subst hd
      exact hmain2 hlive
    · exact hmain j d hd hlive
  · intro j d hj hlive x hx
    rcases hlook j d hj with ⟨he, hd⟩ | ⟨hne, hd⟩
    · rw [hd] at hx hlive
      rw [he]
      by_cases hxi : x = i
      · rw [hxi] at hx
        refine ⟨c', ?_, Or.inl hx⟩
        rw [hxi]
        exact mget_mset_self cl i c'
      · obtain ⟨cx, hcx, hlink⟩ := hZnew hlive x hx hxi
        refine ⟨cx, ?_, hlink⟩
        rw [mget_mset_ne cl c' hxi]
        exact hcx
    · obtain ⟨cx, hcx, hlink⟩ := hZ j d hd hlive x hx
      by_cases hxi : x = i
      · have hcx2 : mget cl i = some cx := by
          rw [hxi] at hcx
          exact hcx
        have hcxc : cx = c := Option.some.inj (hcx2.symm.trans hc)
        refine ⟨c', ?_, ?_⟩
        · rw [hxi]
          exact mget_mset_self cl i c'
        · rw [hcxc] at hlink
          exact hgrow j d hd hlive hne hlink
      · refine ⟨cx, ?_, hlink⟩
        rw [mget_mset_ne cl c' hxi]
        exact hcx
  · intro j d hj hlive x hx
    rcases hlook j d hj with ⟨he, hd⟩ | ⟨hne, hd⟩
    · rw [hd] at hx hlive
      rw [he]
      by_cases hxi : x = i
      · rw [hxi] at hx
        refine ⟨c', ?_, Or.inr hx⟩
        rw [hxi]
        exact mget_mset_self cl i c'
      · obtain ⟨cx, hcx, hlink⟩ := hXnew hlive x hx hxi
        refine ⟨cx, ?_, hlink⟩
        rw [mget_mset_ne cl c' hxi]
        exact hcx
    · obtain ⟨cx, hcx, hlink⟩ := hX j d hd hlive x hx
      by_cases hxi : x = i
      · have hcx2 : mget cl i = some cx := by
          rw [hxi] at hcx
          exact hcx
        have hcxc : cx = c := Option.some.inj (hcx2.symm.trans hc)
        refine ⟨c', ?_, ?_⟩
        · rw [hxi]
          exact mget_mset_self cl i c'
        · rw [hcxc] at hlink
          exact hgrow j d hd hlive hne hlink
      · refine ⟨cx, ?_, hlink⟩
        rw [mget_mset_ne cl c' hxi]
        exact hcx

/-- Inserting a freshly accepted socket (empty `ids`/`web`) keeps the
invariant. -/
theorem cinvc_insertFresh {cl : List (String × CSocket)} (hinv : CInvC cl)
    {i : String} {c : CSocket} (hfresh : mget cl i = none)
    (hid : c.id = i) (hids : c.ids = []) (hweb : c.web = []) (hw : 0 ≤ c.want) :
    CInvC (mset cl i c) := by
  obtain ⟨hkey, hown, hmain, hZ, hX⟩ := hinv
  have hlook : ∀ j d, mget (mset cl i c) j = some d →
      (j = i ∧ d = c) ∨ (j ≠ i ∧ mget cl j = some d) := by
    intro j d hj
    rcases mget_mset_cases cl i j c with ⟨he, hg⟩ | ⟨hne, hg⟩
    · rw [hg] at hj
      exact Or.inl ⟨he, (Option.some.inj hj).symm⟩
    · rw [hg] at hj
      exact Or.inr ⟨hne, hj⟩
  have hkeep : ∀ x cx, mget cl x = some cx → mget (mset cl i c) x = some cx := by
    intro x cx hx
    have hxi : x ≠ i := by
      intro hh
      rw [hh, hfresh] at hx
      cases hx
    rw [mget_mset_ne cl c hxi]
    exact hx
  refine ⟨?_, ?_, ?_, ?_, ?_⟩
  · intro j d hj
    rcases hlook j d hj with ⟨he, hd⟩ | ⟨hne, hd⟩
    · rw [hd, hid, he]
    · exact hkey j d hd
  · intro j d hj
    rcases hlook j d hj with ⟨he, hd⟩ | ⟨hne, hd⟩
    · rw [hd, hids, hweb]
      exact ⟨List.not_mem_nil c.id, List.nodup_nil, List.nodup_nil, hw⟩
    · exact hown j d hd
  · intro j d hj hlive
    rcases hlook j d hj with ⟨he, hd⟩ | ⟨hne, hd⟩
    · rw [hd, hids, hweb]
      refine ⟨fun x hx => absurd hx (List.not_mem_nil x), ?_⟩
      simp only [List.length_nil, Int.ofNat_zero, Nat.cast_zero]
      exact lt_max_of_lt_right one_pos
    · exact hmain j d hd hlive
  · intro j d hj hlive x hx
    rcases hlook j d hj with ⟨he, hd⟩ | ⟨hne, hd⟩
    · rw [hd, hids] at hx
      exact absurd hx (List.not_mem_nil x)
    · obtain ⟨cx, hcx, hlink⟩ := hZ j d hd hlive x hx
      exact ⟨cx, hkeep x cx hcx, hlink⟩
  · intro j d hj hlive x hx
    rcases hlook j d hj with ⟨he, hd⟩ | ⟨hne, hd⟩
    · rw [hd, hweb] at hx
      exact absurd hx (List.not_mem_nil x)
    · obtain ⟨cx, hcx, hlink⟩ := hX j d hd hlive x hx
      exact ⟨cx, hkeep x cx hcx, hlink⟩

/-- Updating a socket in place without touching `id`, `ids`, `web`,
`closed` or `want` (e.g. a `stamp` or `active` write) keeps the
invariant. -/
theorem cinvc_fieldUpdate {cl : List (String × CSocket)} (hinv : CInvC cl)
    {i : String} {c c' : CSocket} (hc : mget cl i = some c)
    (hid : c'.id = c.id) (hids : c'.ids = c.ids) (hweb : c'.web = c.web)
    (hcl : c'.closed = c.closed) (hw : c'.want = c.want) :
    CInvC (mset cl i c') := by
  obtain ⟨hkey, hown, hmain, hZ, hX⟩ := hinv
  refine cinvc_update ⟨hkey, hown, hmain, hZ, hX⟩ hc hid ?_ ?_ ?_ ?_ ?_
  · rw [hid, hids, hweb, hw]
    exact hown i c hc
  · intro hlive
    rw [hids, hweb, hw]
    exact hmain i c hc (hcl ▸ hlive)
  · intro hlive x hx _
    rw [hids] at hx
    exact hZ i c hc (hcl ▸ hlive) x hx
  · intro hlive x hx _
    rw [hweb] at hx
    exact hX i c hc (hcl ▸ hlive) x hx
  · intro y cy _ _ _ hy
    rw [hids, hweb]
    exact hy

/-- Marking a socket closed keeps the invariant. -/
theorem cinvc_close {cl : List (String × CSocket)} (hinv : CInvC cl)
    {i : String} {c : CSocket} (hc : mget cl i = some c) :
    CInvC (mset cl i { c with closed := true }) := by
  obtain ⟨hkey, hown, hmain, hZ, hX⟩ := hinv
  refine cinvc_update ⟨hkey, hown, hmain, hZ, hX⟩ hc rfl ?_ ?_ ?_ ?_ ?_
  · exact hown i c hc
  · intro hlive
    cases hlive
  · intro hlive
    cases hlive
  · intro hlive
    cases hlive
  · intro y cy _ _ _ hy
    exact hy

/-- Deleting a CLOSED socket's id from a socket's pending set keeps the
invariant. -/
theorem cinvc_idsDel {cl : List (String × CSocket)} (hinv : CInvC cl)
    {i delId : String} {c : CSocket} (hc : mget cl i = some c)
    (hdel : ∀ cs, mget cl delId = some cs → cs.closed = true) :
    CInvC (mset cl i { c with ids := sdel c.ids delId }) := by
  obtain ⟨hkey, hown, hmain, hZ, hX⟩ := hinv
  obtain ⟨hni, hnd, hnw, hw⟩ := hown i c hc
  refine cinvc_update ⟨hkey, hown, hmain, hZ, hX⟩ hc rfl ?_ ?_ ?_ ?_ ?_
  · exact ⟨fun hh => hni (mem_sdel hh), sdel_nodup hnd, hnw, hw⟩
  · intro hlive
    obtain ⟨hdisj, hsz⟩ := hmain i c hc hlive
    exact ⟨fun x hx => hdisj x (mem_sdel hx), hsz⟩
  · intro hlive x hx _
    exact hZ i c hc hlive x (mem_sdel hx)
  · intro hlive x hx _
    exact hX i c hc hlive x hx
  · intro y cy hy hylive _ hmem
    rcases hmem with hyi | hyw
    · refine Or.inl (mem_sdel_of_ne ?_ hyi)
      intro hh
      rw [hh] at hy
      rw [hdel cy hy] at hylive
      cases hylive
    · exact Or.inr hyw

/-- The `ids → web` move of the `proc` handler, with final closed flag `b`
(`b = c.closed` for the rematch branch, `b = true` when the handler closes
the socket because `web` has reached `want`). -/
theorem cinvc_move {cl : List (String × CSocket)} (hinv : CInvC cl)
    {i r : String} {c : CSocket} (b : Bool) (hc : mget cl i = some c)
    (hin : r ∈ c.ids) (hnin : r ∉ c.web)
    (hb : b = c.closed ∨ b = true)
    (hsz : b = false → ((c.web.length : ℤ) + 1) < max c.want 1) :
    CInvC (mset cl i
      { c with web := sadd c.web r, ids := sdel c.ids r, closed := b }) := by
  obtain ⟨hkey, hown, hmain, hZ, hX⟩ := hinv
  obtain ⟨hni, hnd, hnw, hw⟩ := hown i c hc
  have hclive : b = false → c.closed = false := by
    intro hbf
    rcases hb with hh | hh
    · rw [← hh, hbf]
    · rw [hh] at hbf
      cases hbf
  refine cinvc_update ⟨hkey, hown, hmain, hZ, hX⟩ hc rfl ?_ ?_ ?_ ?_ ?_
  · refine ⟨fun hh => hni (mem_sdel hh), sdel_nodup hnd, sadd_nodup hnw, hw⟩
  · intro hlive
    obtain ⟨hdisj, hsz0⟩ := hmain i c hc (hclive hlive)
    constructor
    · intro x hx
      have hx2 := (hnd.mem_erase_iff).mp hx
      intro hxw
      rcases mem_sadd.mp hxw with hh | hh
      · exact hdisj x hx2.2 hh
      · exact hx2.1 hh
    · rw [sadd_length_not_mem hnin]
      have := hsz hlive
      simpa using this
  · intro hlive x hx _
    exact hZ i c hc (hclive hlive) x (mem_sdel hx)
  · intro hlive x hx _
    rcases mem_sadd.mp hx with hh | hh
    · exact hX i c hc (hclive hlive) x hh
    · rw [hh]
      exact hZ i c hc (hclive hlive) r hin
  · intro y cy _ _ _ hmem
    rcases hmem with hyi | hyw
    · by_cases hyr : y = r
      · refine Or.inr ?_
        rw [hyr]
        exact mem_sadd.mpr (Or.inr rfl)
      · exact Or.inl (mem_sdel_of_ne hyr hyi)
    · exact Or.inr (mem_sadd.mpr (Or.inl hyw))

/-- The two-key update of `sessionOffers` on a match: each side's id is
added to the other's pending set (and the requester `b` is stamped). -/
theorem cinvc_pairAdd {cl : List (String × CSocket)} (hinv : CInvC cl)
    {a b : String} {ca cb : CSocket} (hab : a ≠ b)
    (hca : mget cl a = some ca) (hcb : mget cl b = some cb)
    (hwa : ca.closed = false → b ∉ ca.web) (hwb : a ∉ cb.web)
    (st : Option ℤ) :
    CInvC (mset (mset cl a { ca with ids := sadd ca.ids b }) b
      { cb with ids := sadd cb.ids a, stamp := st }) := by
  obtain ⟨hkey, hown, hmain, hZ, hX⟩ := hinv
  obtain ⟨hnia, hnda, hnwa, hwta⟩ := hown a ca hca
  obtain ⟨hnib, hndb, hnwb, hwtb⟩ := hown b cb hcb
  have hka : ca.id = a := hkey a ca hca
  have hkb : cb.id = b := hkey b cb hcb
  have hlook : ∀ j d,
      mget (mset (mset cl a { ca with ids := sadd ca.ids b }) b
        { cb with ids := sadd cb.ids a, stamp := st }) j = some d →
      (j = b ∧ d = { cb with ids := sadd cb.ids a, stamp := st }) ∨
      (j = a ∧ d = { ca with ids := sadd ca.ids b }) ∨
      (j ≠ a ∧ j ≠ b ∧ mget cl j = some d) := by
    intro j d hj
    rcases mget_mset_cases (mset cl a { ca with ids := sadd ca.ids b }) b j
        { cb with ids := sadd cb.ids a, stamp := st } with ⟨he, hg⟩ | ⟨hne, hg⟩
    · rw [hg] at hj
      exact Or.inl ⟨he, (Option.some.inj hj).symm⟩
    · rw [hg] at hj
      rcases mget_mset_cases cl a j { ca with ids := sadd ca.ids b } with
        ⟨he2, hg2⟩ | ⟨hne2, hg2⟩
      · rw [hg2] at hj
        exact Or.inr (Or.inl ⟨he2, (Option.some.inj hj).symm⟩)
      · rw [hg2] at hj
        exact Or.inr (Or.inr ⟨hne2, hne, hj⟩)
  have hgetb : mget (mset (mset cl a { ca with ids := sadd ca.ids b }) b
      { cb with ids := sadd cb.ids a, stamp := st }) b =
      some { cb with ids := sadd cb.ids a, stamp := st } :=
    mget_mset_self _ b _
  have hgeta : mget (mset (mset cl a { ca with ids := sadd ca.ids b }) b
      { cb with ids := sadd cb.ids a, stamp := st }) a =
      some { ca with ids := sadd ca.ids b } := by
    rw [mget_mset_ne _ _ hab]
    exact mget_mset_self cl a _
  have hfwd : ∀ x cx, mget cl x = some cx →
      ∃ cx', mget (mset (mset cl a { ca with ids := sadd ca.ids b }) b
        { cb with ids := sadd cb.ids a, stamp := st }) x = some cx' ∧
        ∀ y, (y ∈ cx.ids ∨ y ∈ cx.web) → (y ∈ cx'.ids ∨ y ∈ cx'.web) := by
    intro x cx hx
    by_cases hxb : x = b
    · have hcx : cx = cb := by
        rw [hxb] at hx
        exact Option.some.inj (hx.symm.trans hcb)
      refine ⟨_, by rw [hxb]; exact hgetb, ?_⟩
      intro y hy
      rw [hcx] at hy
      rcases hy with hh | hh
      · exact Or.inl (mem_sadd.mpr (Or.inl hh))
      · exact Or.inr hh
    · by_cases hxa : x = a
      · have hcx : cx = ca := by
          rw [hxa] at hx
          exact Option.some.inj (hx.symm.trans hca)
        refine ⟨_, by rw [hxa]; exact hgeta, ?_⟩
        intro y hy
        rw [hcx] at hy
        rcases hy with hh | hh
        · exact Or.inl (mem_sadd.mpr (Or.inl hh))
        · exact Or.inr hh
      · refine ⟨cx, ?_, fun y hy => hy⟩
        rw [mget_mset_ne _ _ hxb, mget_mset_ne _ _ hxa]
        exact hx
  refine ⟨?_, ?_, ?_, ?_, ?_⟩
  · intro j d hj
    rcases hlook j d hj with ⟨he, hd⟩ | ⟨he, hd⟩ | ⟨hne1, hne2, hd⟩
    · rw [hd, he]
      exact hkb
    · rw [hd, he]
      exact hka
    · exact hkey j d hd
  · intro j d hj
    rcases hlook j d hj with ⟨he, hd⟩ | ⟨he, hd⟩ | ⟨hne1, hne2, hd⟩
    · rw [hd]
      refine ⟨?_, sadd_nodup hndb, hnwb, hwtb⟩
      intro hh
      rcases mem_sadd.mp hh with h2 | h2
      · exact hnib h2
      · rw [hkb] at h2
        exact hab h2.symm
    · rw [hd]
      refine ⟨?_, sadd_nodup hnda, hnwa, hwta⟩
      intro hh
      rcases mem_sadd.mp hh with h2 | h2
      · exact hnia h2
      · rw [hka] at h2
        exact hab h2
    · exact hown j d hd
  · intro j d hj hlive
    rcases hlook j d hj with ⟨he, hd⟩ | ⟨he, hd⟩ | ⟨hne1, hne2, hd⟩
    · rw [hd] at hlive ⊢
      obtain ⟨hdisj, hsz⟩ := hmain b cb hcb hlive
      refine ⟨?_, hsz⟩
      intro x hx
      rcases mem_sadd.mp hx with h2 | h2
      · exact hdisj x h2
      · rw [h2]
        exact hwb
    · rw [hd] at hlive ⊢
      obtain ⟨hdisj, hsz⟩ := hmain a ca hca hlive
      refine ⟨?_, hsz⟩
      intro x hx
      rcases mem_sadd.mp hx with h2 | h2
      · exact hdisj x h2
      · rw [h2]
        exact hwa hlive
    · exact hmain j d hd hlive
  · intro j d hj hlive x hx
    rcases hlook j d hj with ⟨he, hd⟩ | ⟨he, hd⟩ | ⟨hne1, hne2, hd⟩
    · rw [hd] at hlive hx
      rw [he]
      rcases mem_sadd.mp hx with h2 | h2
      · obtain ⟨cx, hcx, hlink⟩ := hZ b cb hcb hlive x h2
        obtain ⟨cx', hcx', hgr⟩ := hfwd x cx hcx
        exact ⟨cx', hcx', hgr b hlink⟩
      · rw [h2]
        exact ⟨_, hgeta, Or.inl (mem_sadd.mpr (Or.inr rfl))⟩
    · rw [hd] at hlive hx
      rw [he]
      rcases mem_sadd.mp hx with h2 | h2
      · obtain ⟨cx, hcx, hlink⟩ := hZ a ca hca hlive x h2
        obtain ⟨cx', hcx', hgr⟩ := hfwd x cx hcx
        exact ⟨cx', hcx', hgr a hlink⟩
      · rw [h2]
        exact ⟨_, hgetb, Or.inl (mem_sadd.mpr (Or.inr rfl))⟩
    · obtain ⟨cx, hcx, hlink⟩ := hZ j d hd hlive x hx
      obtain ⟨cx', hcx', hgr⟩ := hfwd x cx hcx
      exact ⟨cx', hcx', hgr j hlink⟩
  · intro j d hj hlive x hx
    rcases hlook j d hj with ⟨he, hd⟩ | ⟨he, hd⟩ | ⟨hne1, hne2, hd⟩
    · rw [hd] at hlive hx
      rw [he]
      obtain ⟨cx, hcx, hlink⟩ := hX b cb hcb hlive x hx
      obtain ⟨cx', hcx', hgr⟩ := hfwd x cx hcx
      exact ⟨cx', hcx', hgr b hlink⟩
    · rw [hd] at hlive hx
      rw [he]
      obtain ⟨cx, hcx, hlink⟩ := hX a ca hca hlive x hx
      obtain ⟨cx', hcx', hgr⟩ := hfwd x cx hcx
      exact ⟨cx', hcx', hgr a hlink⟩
    · obtain ⟨cx, hcx, hlink⟩ := hX j d hd hlive x hx
      obtain ⟨cx', hcx', hgr⟩ := hfwd x cx hcx
      exact ⟨cx', hcx', hgr j hlink⟩

theorem computeWant_nonneg (w : JSNum) : 0 ≤ computeWant w := by
  cases w with
  | nan => norm_num [computeWant]
  | num q =>
      simp only [computeWant]
      by_cases h : q ≠ 0 ∧ (q < 1 ∨ 6 < q)
      · rw [if_pos h]
        norm_num
      · rw [if_neg h]
        push_neg at h
        by_cases hq : q = 0
        · rw [hq]
          norm_num
        · obtain ⟨h1, -⟩ := h hq
          rw [Int.le_floor]
          push_cast
          linarith

theorem findCandidate_spec (sock : CSocket) (l : List String) :
    ∀ t, findCandidate sock l = some t →
      ¬(sock.id = t ∨ t ∈ sock.ids ∨ t ∈ sock.web) := by
  induction l with
  | nil =>
      intro t h
      cases h
  | cons x xs ih =>
      intro t h
      unfold findCandidate at h
      by_cases hg : sock.id = x ∨ x ∈ sock.ids ∨ x ∈ sock.web
      · rw [if_pos hg] at h
        exact ih t h
      · rw [if_neg hg] at h
        have ht : x = t := Option.some.inj h
        rw [← ht]
        exact hg

theorem matchOffers_clients (s : CState) (sock : CSocket) :
    (matchOffers s sock).1.clients = s.clients := by
  unfold matchOffers
  split
  · rfl
  · split
    · rfl
    · rfl

theorem matchOffers_cand {s : CState} {sock : CSocket} {t : String}
    (h : (matchOffers s sock).2 = some t) :
    ¬(sock.id = t ∨ t ∈ sock.ids ∨ t ∈ sock.web) := by
  unfold matchOffers at h
  split at h
  · exact Option.noConfusion h
  · rename_i waiting hw
    split at h
    · exact Option.noConfusion h
    · rename_i t0 hfc
      have h2 : (if mhas s.clients t0 then some t0 else none) = some t := h
      by_cases hmh : mhas s.clients t0
      · rw [if_pos hmh] at h2
        have ht : t0 = t := Option.some.inj h2
        rw [← ht]
        exact findCandidate_spec sock waiting t0 hfc
      · rw [if_neg hmh] at h2
        exact Option.noConfusion h2

/-- `sessionOffers` keeps the client invariant, given that the candidate
passed the `matchOffers` filter against the requester's socket. -/
theorem cinv_sessionOffers {s : CState} (hinv : CInvC s.clients)
    {reqId : String} {reqS : CSocket} (hreq : mget s.clients reqId = some reqS)
    (cand : Option String)
    (hcand : ∀ t, cand = some t →
      ¬(reqS.id = t ∨ t ∈ reqS.ids ∨ t ∈ reqS.web))
    (now : ℤ) : CInvC (sessionOffers s reqId cand now).1.clients := by
  cases cand with
  | none =>
      simp only [sessionOffers]
      split
      · exact hinv
      · split
        · exact hinv
        · exact hinv
  | some resId =>
      have hfil := hcand resId rfl
      have hkey : reqS.id = reqId := hinv.1 reqId reqS hreq
      have hab : resId ≠ reqId := by
        intro hh
        exact hfil (Or.inl (by rw [hkey, hh]))
      cases hg : mget s.clients resId with
      | none =>
          simp only [sessionOffers, hg]
          exact hinv
      | some res =>
          have hgr : mget (mset s.clients resId
              { res with ids := sadd res.ids reqId }) reqId = some reqS := by
            rw [mget_mset_ne s.clients _ (Ne.symm hab)]
            exact hreq
          simp only [sessionOffers, hg, hgr]
          have hwb : resId ∉ reqS.web := fun hh => hfil (Or.inr (Or.inr hh))
          have hwa : res.closed = false → reqId ∉ res.web := by
            intro hlive hh
            obtain ⟨cx, hcx, hlink⟩ := hinv.2.2.2.2 resId res hg hlive reqId hh
            have hcxr : cx = reqS := Option.some.inj (hcx.symm.trans hreq)
            rw [hcxr] at hlink
            rcases hlink with h2 | h2
            · exact hfil (Or.inr (Or.inl h2))
            · exact hfil (Or.inr (Or.inr h2))
          exact cinvc_pairAdd hinv hab hg hreq hwa hwb (some now)

/-- The `/signal` accept keeps the client invariant. -/
theorem cinv_signalAccept {s : CState} (hinv : CInvC s.clients)
    (hash id : String) (want : JSNum) (now : ℤ) :
    CInvC (signalAccept s hash id want now).1.clients := by
  unfold signalAccept
  by_cases hrej : ¬ (hash ∈ s.hashes) ∨ mhas s.clients id
  · rw [if_pos hrej]
    exact hinv
  · rw [if_neg hrej]
    have hfr : mhas s.clients id = false := by
      cases hh : mhas s.clients id
      · rfl
      · exact absurd (Or.inr (by rw [hh])) hrej
    have hfresh : mget s.clients id = none := mhas_false_mget_none hfr
    simp only
    refine @cinv_sessionOffers _ ?_ id
      ⟨id, hash, computeWant want, true, [], [], none, false⟩ ?_ _ ?_ now
    · rw [matchOffers_clients]
      exact cinvc_insertFresh hinv hfresh rfl rfl rfl (computeWant_nonneg want)
    · rw [matchOffers_clients]
      exact mget_mset_self s.clients id _
    · intro t ht
      exact matchOffers_cand ht

/-- Each side of the `proc` handler keeps the client invariant. -/
theorem cinv_procSide {u : CState} (hinv : CInvC u.clients) (k p : String)
    (now : ℤ) : CInvC (procSide u k p now).1.clients := by
  unfold procSide
  split
  · exact hinv
  · rename_i c hc
    by_cases hg : p ∈ c.ids ∧ p ∉ c.web
    · rw [if_pos hg]
      by_cases hsz : ((sadd c.web p).length : ℤ) < c.want
      · rw [if_pos hsz]
        have hmove : CInvC (mset u.clients k { c with web := sadd c.web p, ids := sdel c.ids p, closed := c.closed }) := by
          refine cinvc_move hinv c.closed hc hg.1 hg.2 (Or.inl rfl) ?_
          intro _
          rw [sadd_length_not_mem hg.2] at hsz
          push_cast at hsz ⊢
          have := le_max_left c.want (1 : ℤ)
          linarith
        refine @cinv_sessionOffers _ ?_ k
          { c with web := sadd c.web p, ids := sdel c.ids p } ?_ _ ?_ now
        · rw [matchOffers_clients]
          exact hmove
        · rw [matchOffers_clients]
          exact mget_mset_self u.clients k _
        · intro t ht
          exact matchOffers_cand ht
      · rw [if_neg hsz]
        have hss := mset_mset_same u.clients k
          { c with web := sadd c.web p, ids := sdel c.ids p }
          { c with web := sadd c.web p, ids := sdel c.ids p, closed := true }
        show CInvC (mset (mset u.clients k _) k _)
        rw [hss]
        refine cinvc_move hinv true hc hg.1 hg.2 (Or.inr rfl) ?_
        intro hh
        cases hh
    · rw [if_neg hg]
      exact hinv

/-- The `proc` handler keeps the client invariant. -/
theorem cinv_procApply {s : CState} (hinv : CInvC s.clients)
    (sender req res : String) (now : ℤ) :
    CInvC (procApply s sender req res now).1.clients := by
  unfold procApply
  split
  · exact hinv
  · rename_i sock0 hs0
    have hinv0 : CInvC (mset s.clients sender { sock0 with stamp := none }) :=
      cinvc_fieldUpdate hinv hs0 rfl rfl rfl rfl rfl
    exact cinv_procSide (cinv_procSide hinv0 res req now) sender res now

/-- The `request`/`response` handlers keep the client invariant. -/
theorem cinv_forwardApply {s : CState} (hinv : CInvC s.clients)
    (act sender target : String) (now : ℤ) :
    CInvC (forwardApply act s sender target now).1.clients := by
  unfold forwardApply
  split
  · exact hinv
  · rename_i sock0 hs0
    have hinv0 : CInvC (mset s.clients sender { sock0 with stamp := none }) :=
      cinvc_fieldUpdate hinv hs0 rfl rfl rfl rfl rfl
    dsimp only
    split
    · split
      · exact hinv0
      · rename_i test ht
        exact cinvc_fieldUpdate hinv0 ht rfl rfl rfl rfl rfl
    · exact hinv0

/-- The client `close` loop keeps the client invariant, given that the
closing id is (if indexed at all) a closed socket. -/
theorem cinv_disconnectLoop (senderId : String) (l : List String) :
    ∀ (u : CState), CInvC u.clients →
      (∀ cs, mget u.clients senderId = some cs → cs.closed = true) →
      CInvC (clientDisconnectLoop senderId u l).1.clients := by
  induction l with
  | nil =>
      intro u hinv _
      exact hinv
  | cons pid rest ih =>
      intro u hinv hdel
      unfold clientDisconnectLoop
      split
      · exact ih u hinv hdel
      · rename_i matched hm
        have hinv1 : CInvC (mset u.clients pid
            { matched with ids := sdel matched.ids senderId }) :=
          cinvc_idsDel hinv hm hdel
        have hdel1 : ∀ cs, mget (mset u.clients pid
            { matched with ids := sdel matched.ids senderId }) senderId =
            some cs → cs.closed = true := by
          intro cs hcs
          by_cases hps : pid = senderId
          · rw [hps, mget_mset_self] at hcs
            have h2 := Option.some.inj hcs
            rw [← h2]
            exact hdel matched (by rw [← hps]; exact hm)
          · rw [mget_mset_ne _ _ (fun hh => hps hh.symm)] at hcs
            exact hdel cs hcs
        dsimp only
        split
        · split
          · exact hinv1
          · split
            · exact ih _ hinv1 hdel1
            · exact ih _ hinv1 hdel1
        · exact ih _ hinv1 hdel1

/-- The client `close` handler keeps the client invariant. -/
theorem cinv_clientDisconnect {s : CState} (hinv : CInvC s.clients)
    (sender : String) : CInvC (clientDisconnect s sender).1.clients := by
  unfold clientDisconnect
  split
  · exact hinv
  · rename_i sock hs
    have hinv0 : CInvC (mset s.clients sender { sock with closed := true }) :=
      cinvc_close hinv hs
    have hdel0 : ∀ cs, mget (mset s.clients sender
        { sock with closed := true }) sender = some cs → cs.closed = true := by
      intro cs hcs
      rw [mget_mset_self] at hcs
      have h2 := Option.some.inj hcs
      rw [← h2]
    exact cinv_disconnectLoop sender sock.ids _ hinv0 hdel0

/-- Every action of the client machine keeps the invariant. -/
theorem cinv_cstep {s : CState} (hinv : CInvC s.clients) (a : CAct) :
    CInvC (cstepFn s a).clients := by
  cases a with
  | accept h i w now => exact cinv_signalAccept hinv h i w now
  | proc sender req res now => exact cinv_procApply hinv sender req res now
  | request sender res now => exact cinv_forwardApply hinv "request" sender res now
  | response sender req now => exact cinv_forwardApply hinv "response" sender req now
  | disconnect sender => exact cinv_clientDisconnect hinv sender

/-- **C1** (amended): in every reachable state of the client machine,
every live ClientConn `c` has its pending and completed peering sets
disjoint (`c.ids ∩ c.web = ∅`), at most `c.want` completed peerings, and —
whenever `c.want ≥ 1`, which holds for every value the clamp can produce
except `want = 0` — strictly fewer than `c.want` of them.  (The original
claim's close-when-full clause fails at `want = 0`, see
`c1_want_zero_live_counterexample`: such a socket is live with
`|web| = 0 ≥ 0 = want` and is never closed by the relay.) -/
theorem c1_client_invariants (hashes : List String) (s : CState)
    (h : CReach (cInit hashes) s) :
    ∀ i c, mget s.clients i = some c → c.closed = false →
      (∀ x ∈ c.ids, x ∉ c.web) ∧ (c.web.length : ℤ) ≤ c.want ∧
        (1 ≤ c.want → (c.web.length : ℤ) < c.want) := by
  have hinv : CInvC s.clients := by
    induction h with
    | refl => exact cinvc_nil
    | step a hr ih => exact cinv_cstep ih a
  intro i c hc hlive
  obtain ⟨hdisj, hsz⟩ := hinv.2.2.1 i c hc hlive
  obtain ⟨-, -, -, hw⟩ := hinv.2.1 i c hc
  refine ⟨hdisj, ?_, ?_⟩
  · rcases le_or_lt 1 c.want with h1 | h1
    · rw [max_eq_left h1] at hsz
      exact le_of_lt hsz
    · rw [max_eq_right (le_of_lt h1)] at hsz
      omega
  · intro h1
    rw [max_eq_left h1] at hsz
    exact hsz

/-- The ClientConn created by the accept in `c1Ctr`. -/
def c1WSock : CSocket :=
  { id := "z", hash := "H", want := 0, active := true, ids := [], web := [],
    stamp := none, closed := false }

/-- **C1** (witness): the amended invariant evaluated on the concrete
reachable state `c1Ctr` at the live client `"z"`. -/
theorem c1_client_invariants_witness :
    (∀ x ∈ c1WSock.ids, x ∉ c1WSock.web) ∧
      (c1WSock.web.length : ℤ) ≤ c1WSock.want ∧
      (1 ≤ c1WSock.want → (c1WSock.web.length : ℤ) < c1WSock.want) :=
  c1_client_invariants ["H"] c1Ctr (CReach.step _ CReach.refl) "z" c1WSock
    (by decide) (by decide)

/-- Clients `"a"` and `"b"` accepted on hash `"H"` and auto-paired: each
holds the other in `ids`, the waiting set for `"H"` is empty. -/
def c6Paired : CState :=
  cstepFn (cstepFn cexInit (CAct.accept "H" "a" (JSNum.num 4) 0))
    (CAct.accept "H" "b" (JSNum.num 4) 1)

/-- **C6**: when `"a"` closes, its pending partner `"b"` is sent
`interrupt` and loses `"a"` from its `ids`, but the re-queueing step reads
`this.offers.get(matched.id)` — keyed by the PEER'S ID instead of
`matched.hash` — which is `undefined`, so `matching.has(...)` throws a
`TypeError`: the loop aborts, `"b"` is never re-inserted into the waiting
set for `"H"`, and the handler dies mid-iteration. -/
theorem c6_requeue_throws :
    CReach cexInit c6Paired ∧
      (clientDisconnect c6Paired "a").2.2 = true ∧
      (clientDisconnect c6Paired "a").2.1 = [("b", CFrame.interrupt "a")] ∧
      (∃ c, mget (clientDisconnect c6Paired "a").1.clients "b" = some c ∧
        c.ids = []) ∧
      mget (clientDisconnect c6Paired "a").1.offers "H" = some [] := by
  refine ⟨CReach.step _ (CReach.step _ CReach.refl), ?_, ?_, ⟨_, rfl, rfl⟩, ?_⟩ <;> decide

end Relay
